import Mathlib

/-!
# Grouping stage of the storage service

A shallow embedding of `services/storage/group_series_cursor.go`: the sort phase
that drains the upstream series cursor and orders the rows by a composite key, the
walk over the sorted rows that delimits one group per `Next`, and the `keyMerger`
that maintains the union of the tag keys of a group in two reusable buffers.

Conventions of the embedding.
* A Go `[]byte` is a list of bytes; the nil slice and the empty slice are both `[]`.
* A Go `[][]byte` slice that starts at offset 0 of its backing array is a `KeySlice`:
  the visible elements and the spare capacity behind them.
* Code that can fail at run time with an index or slice bound out of range returns
  an `Option`; `none` is the run-time failure.  Loops over indices carry a fuel
  argument next to the loop variables and also answer `none` when it runs out; the
  callers pass a bound that is proved sufficient.
-/

namespace storage

/-! ## Bytes -/

/-- A byte string, Go `[]byte`. -/
abbrev Bytes := List (Fin 256)

/-- Go `bytes.Compare`: lexicographic comparison, result -1, 0 or +1. -/
def bytesCompare : Bytes → Bytes → Int
  | [], [] => 0
  | [], _ :: _ => -1
  | _ :: _, [] => 1
  | a :: as, b :: bs =>
    if a < b then -1 else if b < a then 1 else bytesCompare as bs

/-- Go `bytes.Equal`. -/
def bytesEqual (a b : Bytes) : Bool := decide (a = b)

/-! ## Tags and rows -/

/-- One tag, `models.Tag`. -/
structure Tag where
  Key : Bytes
  Value : Bytes
deriving DecidableEq, Repr

/-- A tag set, `models.Tags`. -/
abbrev Tags := List Tag

/-- Modelled from the spec: `models.Tags.Get` is declared in the `models` package,
which is not part of the sources at hand.  It looks the key up in the tag set and
returns its value, or the nil slice when the key is absent. -/
def Tags.Get : Tags → Bytes → Bytes
  | [], _ => []
  | t :: rest, key => if bytesEqual t.Key key then t.Value else Tags.Get rest key

/-- A row of the upstream cursor.  The declaration of `seriesRow` is not part of the
sources at hand; `tags` and `stags` are the two fields the grouping stage touches and
`ref` stands for every other field (the series reference), carried along unchanged. -/
structure seriesRow where
  ref : Nat
  stags : Tags
  tags : Tags
deriving DecidableEq, Repr

/-- Modelled from the spec: `tagsBuffer.copyTags` is declared outside the sources at
hand; it returns an arena-backed copy that is structurally equal to its argument. -/
def copyTags (src : Tags) : Tags := src

/-- Modelled from the spec: the upstream `indexSeriesCursor`, declared outside the
sources at hand.  It hands out its pending rows one by one and can be closed. -/
structure indexSeriesCursor where
  pending : List seriesRow
  closed : Bool
deriving DecidableEq, Repr

/-- Modelled from the spec: `indexSeriesCursor.Close`, idempotent. -/
def indexSeriesCursor.Close (cur : indexSeriesCursor) : indexSeriesCursor :=
  { cur with closed := true }

/-- A retained row with its composite sort key, `sortRow`. -/
structure sortRow where
  row : seriesRow
  key : Bytes
deriving DecidableEq, Repr

/-- The sentinel `nilKey = [...]byte{0xff}`. -/
def nilKey : Bytes := [0xff]

/-! ## Slices of keys -/

/-- A Go `[][]byte` slice whose first element is the first element of its backing
array: `elems` are the `len` visible elements, `spare` the rest of the backing array,
so that `cap = len + spare.length`. -/
structure KeySlice where
  elems : List Bytes
  spare : List Bytes
deriving DecidableEq, Repr

/-- Go `len(s)`. -/
def KeySlice.len (s : KeySlice) : Nat := s.elems.length

/-- Go `cap(s)`. -/
def KeySlice.cap (s : KeySlice) : Nat := s.elems.length + s.spare.length

/-- Go `make([][]byte, n)`: `n` nil entries, no spare capacity. -/
def KeySlice.make (n : Nat) : KeySlice := ⟨List.replicate n [], []⟩

/-- Go `s[:n]`, which fails unless `n ≤ cap(s)`. -/
def KeySlice.reslice (s : KeySlice) (n : Nat) : Option KeySlice :=
  if n ≤ s.cap then some ⟨(s.elems ++ s.spare).take n, (s.elems ++ s.spare).drop n⟩
  else none

/-- Go `s[k] = v`, which fails unless `k < len(s)`. -/
def KeySlice.store (s : KeySlice) (k : Nat) (v : Bytes) : Option KeySlice :=
  if k < s.len then some { s with elems := s.elems.set k v } else none

/-- Go `copy(dst[lo:hi], src)`: the slice expression fails unless `lo ≤ hi ≤ cap(dst)`;
`min (hi - lo) len(src)` elements are copied and that number is returned. -/
def KeySlice.copyInto (dst : KeySlice) (lo hi : Nat) (src : List Bytes) :
    Option (Nat × KeySlice) :=
  if lo ≤ hi ∧ hi ≤ dst.cap then
    let n := min (hi - lo) src.length
    let arr := dst.elems ++ dst.spare
    let arr := arr.take lo ++ src.take n ++ arr.drop (lo + n)
    some (n, ⟨arr.take dst.len, arr.drop dst.len⟩)
  else none

/-- The sizing of a buffer in `setTags` and in `mergeTagKeys`:
`if cap(s) < n { s = make([][]byte, n) } else { s = s[:n] }`. -/
def KeySlice.grow (s : KeySlice) (n : Nat) : Option KeySlice :=
  if s.cap < n then some (KeySlice.make n) else s.reslice n

/-- The visible elements of Go `s[lo:hi]`, which fails unless `lo ≤ hi ≤ cap(s)`. -/
def KeySlice.slice (s : KeySlice) (lo hi : Nat) : Option (List Bytes) :=
  if lo ≤ hi ∧ hi ≤ s.cap then some (((s.elems ++ s.spare).drop lo).take (hi - lo))
  else none

/-! ## keyMerger -/

/-- The type `keyMerger`: the index of the active buffer and the two buffers
`keys[0]` and `keys[1]`. -/
structure keyMerger where
  i : Int
  keys0 : KeySlice
  keys1 : KeySlice
deriving DecidableEq, Repr

/-- The array access `km.keys[n]` for `n` equal to 0 or 1. -/
def keyMerger.keysAt (km : keyMerger) (n : Int) : KeySlice :=
  if n = 0 then km.keys0 else km.keys1

/-- The array update `km.keys[n] = s` for `n` equal to 0 or 1. -/
def keyMerger.setKeysAt (km : keyMerger) (n : Int) (s : KeySlice) : keyMerger :=
  if n = 0 then { km with keys0 := s } else { km with keys1 := s }

/-- The range loop of `setTags`: `for i := range tags { km.keys[0][i] = tags[i].Key }`;
the list argument holds the tags from index `i` on. -/
def setTagsLoop : Tags → Nat → KeySlice → Option KeySlice
  | [], _, s => some s
  | t :: rest, i, s => do
    let s ← s.store i t.Key
    setTagsLoop rest (i + 1) s

/-- The method `keyMerger.setTags`. -/
def keyMerger.setTags (km : keyMerger) (tags : Tags) : Option keyMerger := do
  let k0 ← km.keys0.grow tags.length
  let k0 ← setTagsLoop tags 0 k0
  some { km with i := 0, keys0 := k0 }

/-- The method `keyMerger.get`: the visible elements of `km.keys[km.i&1]`
(`km.i & 1` is `km.i % 2` in two's complement). -/
def keyMerger.get (km : keyMerger) : List Bytes := (km.keysAt (km.i % 2)).elems

/-- The first loop of `mergeTagKeys`: skip the positions on which the active buffer
and the incoming tags carry the same key. -/
def matchLoop (keys : List Bytes) (tags : Tags) : Nat → Nat → Nat → Option (Nat × Nat)
  | 0, _, _ => none
  | fuel + 1, i, j =>
    if i < keys.length ∧ j < tags.length then
      match keys[i]?, tags[j]? with
      | some a, some t =>
        if bytesCompare a t.Key = 0 then matchLoop keys tags fuel (i + 1) (j + 1)
        else some (i, j)
      | _, _ => none
    else some (i, j)

/-- The two-pointer loop of `mergeTagKeys`, writing into `keya` at position `k`. -/
def mergeLoop (keys : List Bytes) (tags : Tags) :
    Nat → Nat → Nat → Nat → KeySlice → Option (Nat × Nat × Nat × KeySlice)
  | 0, _, _, _, _ => none
  | fuel + 1, i, j, k, keya =>
    if i < keys.length ∧ j < tags.length then
      match keys[i]?, tags[j]? with
      | some a, some t =>
        let cmp := bytesCompare a t.Key
        if cmp < 0 then do
          let keya ← keya.store k a
          mergeLoop keys tags fuel (i + 1) j (k + 1) keya
        else if cmp > 0 then do
          let keya ← keya.store k t.Key
          mergeLoop keys tags fuel i (j + 1) (k + 1) keya
        else do
          let keya ← keya.store k a
          mergeLoop keys tags fuel (i + 1) (j + 1) (k + 1) keya
      | _, _ => none
    else some (i, j, k, keya)

/-- The last loop of `mergeTagKeys`: append the keys of the tags left over. -/
def tailLoop (tags : Tags) : Nat → Nat → Nat → KeySlice → Option (Nat × Nat × KeySlice)
  | 0, _, _, _ => none
  | fuel + 1, j, k, keya =>
    if j < tags.length then
      match tags[j]? with
      | some t => do
        let keya ← keya.store k t.Key
        tailLoop tags fuel (j + 1) (k + 1) keya
      | none => none
    else some (j, k, keya)

/-- The step of `mergeTagKeys` after the two-pointer loop:
`if i < len(keys) { k += copy(keya[k:], keys[i:]) }`. -/
def copyRest (keys : KeySlice) (i k : Nat) (keya : KeySlice) : Option (Nat × KeySlice) :=
  if i < keys.len then do
    let src ← keys.slice i keys.len
    let (n, keya) ← keya.copyInto k keya.len src
    some (k + n, keya)
  else some (k, keya)

/-- The part of `mergeTagKeys` from `k := i` to the end: copy the first `k` keys,
merge, copy what is left of either side and cut `keya` to the `k` keys written. -/
def mergeFrom (keys : KeySlice) (tags : Tags) (i j : Nat) (keya : KeySlice) :
    Option KeySlice := do
  let k := i
  let src ← keys.slice 0 k
  let (_, keya) ← keya.copyInto 0 k src
  let (i, j, k, keya) ← mergeLoop keys.elems tags (keys.len + tags.length + 1) i j k keya
  let (k, keya) ← copyRest keys i k keya
  let (_, k, keya) ← tailLoop tags (tags.length + 1) j k keya
  keya.reslice k

/-- The method `keyMerger.mergeTagKeys`. -/
def keyMerger.mergeTagKeys (km : keyMerger) (tags : Tags) : Option keyMerger := do
  let keys := km.keysAt (km.i % 2)
  let (i, j) ← matchLoop keys.elems tags (keys.len + 1) 0 0
  if j = tags.length then
    -- no new tags
    some km
  else
    let ni : Int := (km.i + 1) % 2
    let l := keys.len + tags.length
    let keya ← (km.keysAt ni).grow l
    -- back up the pointers
    let (i, j) := if i > 0 then (i - 1, j - 1) else (i, j)
    let keya ← mergeFrom keys tags i j keya
    some ({ km with i := ni }.setKeysAt ni keya)

/-- A caller that hands tag sets to `mergeTagKeys` one after another. -/
def mergeAll : keyMerger → List Tags → Option keyMerger
  | km, [] => some km
  | km, t :: ts => do
    let km ← km.mergeTagKeys t
    mergeAll km ts

/-! ## The library sort -/

/-- What Go's `sort` package asks of a `less` function: it is irreflexive and
"must describe a transitive ordering": if `less a b` and `less b c` then `less a c`,
and if neither `less a b` nor `less b c` then not `less a c`. -/
def LessOrdering {α : Type} (less : α → α → Bool) : Prop :=
  (∀ a, less a a = false) ∧
  (∀ a b c, less a b = true → less b c = true → less a c = true) ∧
  (∀ a b c, less a b = false → less b c = false → less a c = false)

/-- Go's `sort.Slice` applied to a slice of rows is library code; it is a parameter
of the sort phase: a function from the `less` closure and the rows to the rows as
the call leaves them. -/
abbrev SliceSort := (sortRow → sortRow → Bool) → List sortRow → List sortRow

/-- The contract of Go's `sort.Slice`: the result is a rearrangement of the
argument and, when `less` is an ordering, no element of the result sorts before an
element in front of it.  Nothing is promised about the order of elements that
compare equal (the sort is not stable). -/
def SliceSort.Contract (srt : SliceSort) : Prop :=
  (∀ less rows, (srt less rows).Perm rows) ∧
  (∀ less rows, LessOrdering less → (srt less rows).Pairwise (fun a b => less b a = false))

/-- The inner loop of Go's `insertionSortLessFunc`: the element `x` moves towards the
front while it sorts before its neighbour.  The argument is the sorted part in front
of `x`, nearest neighbour first. -/
def insertBack {α : Type} (less : α → α → Bool) (x : α) : List α → List α
  | [] => [x]
  | y :: ys => if less x y then y :: insertBack less x ys else x :: y :: ys

/-- Go's `insertionSortLessFunc`, the algorithm `sort.Slice` runs on short slices. -/
def insertionSortLessFunc {α : Type} (less : α → α → Bool) (data : List α) : List α :=
  (data.foldl (fun front x => insertBack less x front) []).reverse

/-! ## groupResultSet -/

/-- The type `singleGroupCursor`; the read request it carries is left out. -/
structure singleGroupCursor where
  i : Nat
  rows : List sortRow
  keys : List Bytes
deriving DecidableEq, Repr

/-- The method `singleGroupCursor.reset`. -/
def singleGroupCursor.reset (c : singleGroupCursor) (rows : List sortRow) :
    singleGroupCursor :=
  { c with i := 0, rows := rows }

/-- The method `singleGroupCursor.Keys`. -/
def singleGroupCursor.Keys (c : singleGroupCursor) : List Bytes := c.keys

/-- The method `singleGroupCursor.Tags`: `c.rows[c.i-1].row.tags`, which fails when
the index `c.i - 1` is negative or not below `len(c.rows)`. -/
def singleGroupCursor.Tags (c : singleGroupCursor) : Option Tags :=
  if c.i = 0 then none else (c.rows[c.i - 1]?).map fun s => s.row.tags

/-- The method `singleGroupCursor.Next`: the boolean it returns and the cursor it
leaves behind. -/
def singleGroupCursor.Next (c : singleGroupCursor) : Bool × singleGroupCursor :=
  if c.i < c.rows.length then (true, { c with i := c.i + 1 }) else (false, c)

/-- A caller that calls `Next` on a group cursor `k` times: the cursor after the
calls. -/
def singleGroupCursor.nextN : Nat → singleGroupCursor → singleGroupCursor
  | 0, c => c
  | k + 1, c => (singleGroupCursor.nextN k c).Next.2

/-- The type `groupResultSet`; the context is left out. -/
structure groupResultSet where
  cur : indexSeriesCursor
  i : Nat
  rows : List sortRow
  keys : List Bytes
  gc : singleGroupCursor
  km : keyMerger
deriving DecidableEq, Repr

/-- The values gathered for one row in `sort`: for every grouping key the value the
row's tags give it, or `nilKey` when that value has length zero. -/
def sortVals (keys : List Bytes) (tags : Tags) : List Bytes :=
  keys.map fun k =>
    let v := Tags.Get tags k
    if v.length = 0 then nilKey else v

/-- The composite key of one row in `sort`: the values appended one after another. -/
def sortKey (vals : List Bytes) : Bytes :=
  vals.foldl (fun key v => key ++ v) []

/-- The loop of `sort` over the rows the upstream cursor hands out. -/
def sortLoop (keys : List Bytes) : List seriesRow → List sortRow → List sortRow
  | [], rows => rows
  | row :: pending, rows =>
    let nr : seriesRow :=
      { row with stags := copyTags row.stags, tags := copyTags row.tags }
    let vals := sortVals keys nr.tags
    sortLoop keys pending (rows ++ [⟨nr, sortKey vals⟩])

/-- The closure handed to `sort.Slice` in `sort`. -/
def sortLess (a b : sortRow) : Bool := bytesCompare a.key b.key == -1

/-- The method `groupResultSet.sort`; the tracing span is left out.  The upstream
cursor ends up drained and closed. -/
def groupResultSet.sort (srt : SliceSort) (c : groupResultSet) : groupResultSet :=
  let rows := sortLoop c.keys c.cur.pending []
  let rows := srt sortLess rows
  { c with rows := rows, cur := indexSeriesCursor.Close { c.cur with pending := [] } }

/-- The function `newGroupResultSet`; a Go string is its bytes. -/
def newGroupResultSet (srt : SliceSort) (cur : indexSeriesCursor) (keys : List Bytes) :
    groupResultSet :=
  let g : groupResultSet :=
    { cur := cur, i := 0, rows := [], keys := keys.map fun k => k,
      gc := ⟨0, [], []⟩, km := ⟨0, ⟨[], []⟩, ⟨[], []⟩⟩ }
  g.sort srt

/-- The method `groupResultSet.Close`. -/
def groupResultSet.Close (c : groupResultSet) : groupResultSet :=
  { c with cur := c.cur.Close }

/-- The loop of `nextGroup`: advance `j` over the rows whose key equals `rowKey`,
merging their tag keys. -/
def groupLoop (rows : List sortRow) (rowKey : Bytes) :
    Nat → keyMerger → Nat → Option (keyMerger × Nat)
  | 0, _, _ => none
  | fuel + 1, km, j =>
    if j < rows.length then
      match rows[j]? with
      | some r =>
        if bytesEqual rowKey r.key then do
          let km ← km.mergeTagKeys r.row.tags
          groupLoop rows rowKey fuel km (j + 1)
        else some (km, j)
      | none => none
    else some (km, j)

/-- The rows of Go `rows[i:j]`, which fails unless `i ≤ j ≤ cap(rows)`; the
capacity is taken to be the length. -/
def sliceRows (rows : List sortRow) (i j : Nat) : Option (List sortRow) :=
  if i ≤ j ∧ j ≤ rows.length then some ((rows.drop i).take (j - i)) else none

/-- The method `groupResultSet.nextGroup`. -/
def groupResultSet.nextGroup (c : groupResultSet) : Option groupResultSet := do
  let first ← c.rows[c.i]?
  let km ← c.km.setTags first.row.tags
  let rowKey := first.key
  let (km, j) ← groupLoop c.rows rowKey (c.rows.length + 1) km (c.i + 1)
  let grp ← sliceRows c.rows c.i j
  let gc := c.gc.reset grp
  let gc := { gc with keys := km.get }
  some { c with km := km, gc := gc, i := j }

/-- The method `groupResultSet.Next`: the cursor it returns (`none` for nil), which is
the one cursor `c.gc` of the result set as it stands when the call returns, and the
result set the call leaves behind. -/
def groupResultSet.Next (c : groupResultSet) :
    Option (Option singleGroupCursor × groupResultSet) :=
  if c.i < c.rows.length then do
    let c ← c.nextGroup
    some (some c.gc, c)
  else some (none, c)

/-- A caller that calls `Next` until it returns nil and collects the group cursors
as they are returned. -/
def drain : Nat → groupResultSet → Option (List singleGroupCursor)
  | 0, _ => none
  | fuel + 1, c =>
    match c.Next with
    | none => none
    | some (none, _) => some []
    | some (some gc, c) => (drain fuel c).map fun gs => gc :: gs

/-- All groups of a result set, in the order `Next` returns them. -/
def groupResultSet.groups (c : groupResultSet) : Option (List singleGroupCursor) :=
  drain (c.rows.length + 1) c

/-! ## The merge on lists -/

/-- The number of leading positions on which two lists of keys agree. -/
def matchLen : List Bytes → List Bytes → Nat
  | a :: ks, t :: ts => if a = t then matchLen ks ts + 1 else 0
  | _, _ => 0

/-- The two-pointer merge of two lists of keys in which keys that compare equal are
kept once: what the loops of `mergeTagKeys` write, as a function on lists. -/
def mergeKeys : List Bytes → List Bytes → List Bytes
  | [], ts => ts
  | a :: ks, [] => a :: ks
  | a :: ks, t :: ts =>
    if bytesCompare a t < 0 then a :: mergeKeys ks (t :: ts)
    else if bytesCompare a t > 0 then t :: mergeKeys (a :: ks) ts
    else a :: mergeKeys ks ts
termination_by ks ts => ks.length + ts.length

/-- The keys of a tag set, in order. -/
def tagKeys (tags : Tags) : List Bytes := tags.map Tag.Key

/-! ## The groups on lists -/

/-- The number of rows at the front of a list whose key is `rowKey`. -/
def runLen (rowKey : Bytes) : List sortRow → Nat
  | [] => 0
  | r :: rest => if rowKey = r.key then runLen rowKey rest + 1 else 0

/-- The keys of a group made of the row `first` followed by `others`: the tag keys
of `first` with the tag keys of the others merged in one row after the other. -/
def groupKeys (first : sortRow) (others : List sortRow) : List Bytes :=
  others.foldl (fun acc r => mergeKeys acc (tagKeys r.row.tags)) (tagKeys first.row.tags)

/-- The group cursors of a list of rows: the first row with the rows behind it that
carry its key, then the groups of the rows that follow. -/
def groupsOf : List sortRow → List singleGroupCursor
  | [] => []
  | first :: post =>
    ⟨0, first :: post.take (runLen first.key post),
      groupKeys first (post.take (runLen first.key post))⟩ ::
      groupsOf (post.drop (runLen first.key post))
termination_by rows => rows.length
decreasing_by simp only [List.length_drop, List.length_cons]; omega

/-! ## Example data -/

/-- The tag key `a`. -/
def keyA : Bytes := [97]

/-- The tag key `b`. -/
def keyB : Bytes := [98]

/-- The row with tags `a=1`, `b=23`. -/
def rowA1B23 : seriesRow := ⟨0, [], [⟨keyA, [49]⟩, ⟨keyB, [50, 51]⟩]⟩

/-- The row with tags `a=12`, `b=3`. -/
def rowA12B3 : seriesRow := ⟨1, [], [⟨keyA, [49, 50]⟩, ⟨keyB, [51]⟩]⟩

/-- The row with the single tag `a=1`. -/
def rowA1 : seriesRow := ⟨2, [], [⟨keyA, [49]⟩]⟩

/-- The row with tags `a=2`, `b=x`. -/
def rowA2Bx : seriesRow := ⟨3, [], [⟨keyA, [50]⟩, ⟨keyB, [120]⟩]⟩

/-- The row with the single tag `b=x`. -/
def rowBx : seriesRow := ⟨4, [], [⟨keyB, [120]⟩]⟩

/-- The tag key `region`. -/
def keyRegion : Bytes := [114, 101, 103, 105, 111, 110]

/-- The value `east`. -/
def valEast : Bytes := [101, 97, 115, 116]

/-- The value `west`. -/
def valWest : Bytes := [119, 101, 115, 116]

/-- A first row with the tag `region=east`. -/
def rowEast1 : seriesRow := ⟨10, [], [⟨keyRegion, valEast⟩]⟩

/-- A second row with the tag `region=east`. -/
def rowEast2 : seriesRow := ⟨11, [], [⟨keyRegion, valEast⟩]⟩

/-- A row with the tag `region=west`. -/
def rowWest : seriesRow := ⟨12, [], [⟨keyRegion, valWest⟩]⟩

/-- The row with the single tag `a`, whose value is empty. -/
def rowAEmpty : seriesRow := ⟨5, [], [⟨keyA, []⟩]⟩

/-- The row with the single tag `b`, whose value is the one byte 0xFF. -/
def rowBff : seriesRow := ⟨6, [], [⟨keyB, [0xff]⟩]⟩

/-- The row with the single tag `b`, whose value is empty. -/
def rowBEmpty : seriesRow := ⟨7, [], [⟨keyB, []⟩]⟩

/-- The tag key `host`. -/
def keyHost : Bytes := [104, 111, 115, 116]

/-- The tag key `az`. -/
def keyAz : Bytes := [97, 122]

/-- The row with tags `az=1`, `host=a`. -/
def rowHostA : seriesRow := ⟨20, [], [⟨keyAz, [49]⟩, ⟨keyHost, [97]⟩]⟩

/-- The row with the single tag `az=2`. -/
def rowAz2 : seriesRow := ⟨21, [], [⟨keyAz, [50]⟩]⟩

/-- The row with tags `a=1`, `b=2`. -/
def rowA1B2 : seriesRow := ⟨30, [], [⟨keyA, [49]⟩, ⟨keyB, [50]⟩]⟩

/-- The row with tags `a=12` and `b` with the empty value. -/
def rowA12BEmpty : seriesRow := ⟨31, [], [⟨keyA, [49, 50]⟩, ⟨keyB, []⟩]⟩

/-- A key merger whose active buffer `keys[0]` holds the keys `a`, `b`. -/
def mergerAB : keyMerger := ⟨0, ⟨[keyA, keyB], []⟩, ⟨[], []⟩⟩

/-- A list of keys in strictly ascending byte order. -/
abbrev StrictAsc (l : List Bytes) : Prop := l.Pairwise fun a b => bytesCompare a b < 0

/-- A list of keys in ascending byte order, equal neighbours allowed. -/
abbrev Asc (l : List Bytes) : Prop := l.Pairwise fun a b => bytesCompare a b ≤ 0

/-! ## Facts about the byte order -/

theorem bytesCompare_range (a b : Bytes) :
    bytesCompare a b = -1 ∨ bytesCompare a b = 0 ∨ bytesCompare a b = 1 := by
  induction a generalizing b with
  | nil => cases b <;> simp [bytesCompare]
  | cons x xs ih =>
    cases b with
    | nil => simp [bytesCompare]
    | cons y ys =>
      simp only [bytesCompare]
      split
      · simp
      · split
        · simp
        · exact ih ys

theorem bytesCompare_eq_zero_iff (a b : Bytes) : bytesCompare a b = 0 ↔ a = b := by
  induction a generalizing b with
  | nil => cases b <;> simp [bytesCompare]
  | cons x xs ih =>
    cases b with
    | nil => simp [bytesCompare]
    | cons y ys =>
      simp only [bytesCompare, List.cons.injEq]
      split
      · rename_i h
        simp only [Int.reduceNeg, Int.neg_eq_zero, one_ne_zero, false_iff, not_and]
        intro hxy; exact absurd h (by simp [hxy])
      · split
        · rename_i h
          simp only [one_ne_zero, false_iff, not_and]
          intro hxy; exact absurd h (by simp [hxy])
        · rename_i h1 h2
          have hxy : x = y := le_antisymm (not_lt.1 h2) (not_lt.1 h1)
          simp [hxy, ih]

theorem bytesCompare_self (a : Bytes) : bytesCompare a a = 0 :=
  (bytesCompare_eq_zero_iff a a).2 rfl

theorem bytesCompare_swap (a b : Bytes) : bytesCompare b a = - bytesCompare a b := by
  induction a generalizing b with
  | nil => cases b <;> simp [bytesCompare]
  | cons x xs ih =>
    cases b with
    | nil => simp [bytesCompare]
    | cons y ys =>
      simp only [bytesCompare]
      by_cases h1 : x < y
      · have h2 : ¬ y < x := not_lt.2 (le_of_lt h1)
        simp [h1, h2]
      · by_cases h2 : y < x
        · simp [h1, h2]
        · simp [h1, h2, ih]

theorem bytesCompare_lt_trans {a b c : Bytes} (hab : bytesCompare a b = -1)
    (hbc : bytesCompare b c = -1) : bytesCompare a c = -1 := by
  induction a generalizing b c with
  | nil =>
    cases c with
    | nil => cases b <;> simp [bytesCompare] at hab hbc
    | cons z zs => simp [bytesCompare]
  | cons x xs ih =>
    cases b with
    | nil => simp [bytesCompare] at hab
    | cons y ys =>
      cases c with
      | nil => simp [bytesCompare] at hbc
      | cons z zs =>
        simp only [bytesCompare] at hab hbc ⊢
        by_cases hxy : x < y
        · by_cases hyz : y < z
          · simp [lt_trans hxy hyz]
          · by_cases hzy : z < y
            · simp [hyz, hzy] at hbc
            · have : y = z := le_antisymm (not_lt.1 hzy) (not_lt.1 hyz)
              subst this; simp [hxy]
        · by_cases hyx : y < x
          · simp [hxy, hyx] at hab
          · have : x = y := le_antisymm (not_lt.1 hyx) (not_lt.1 hxy)
            subst this
            by_cases hyz : x < z
            · simp [hyz]
            · by_cases hzy : z < x
              · simp [hyz, hzy] at hbc
              · simp only [hxy, hyz, hzy, if_false] at hab hbc ⊢
                exact ih hab hbc

theorem bytesCompare_lt_iff (a b : Bytes) : bytesCompare a b < 0 ↔ bytesCompare a b = -1 := by
  rcases bytesCompare_range a b with h | h | h <;> simp [h]

theorem bytesCompare_gt_iff (a b : Bytes) : bytesCompare a b > 0 ↔ bytesCompare b a = -1 := by
  rw [bytesCompare_swap a b]
  rcases bytesCompare_range a b with h | h | h <;> simp [h]

theorem bytesEqual_iff (a b : Bytes) : bytesEqual a b = true ↔ a = b := by
  simp [bytesEqual]

theorem sortLess_ordering : LessOrdering sortLess := by
  refine ⟨?_, ?_, ?_⟩
  · intro a; simp [sortLess, bytesCompare_self]
  · intro a b c hab hbc
    simp only [sortLess, beq_iff_eq] at hab hbc ⊢
    exact bytesCompare_lt_trans hab hbc
  · intro a b c hab hbc
    simp only [sortLess, beq_eq_false_iff_ne, ne_eq] at hab hbc ⊢
    intro hac
    -- a < c; b is not above a and c is not above b
    rcases bytesCompare_range a.key b.key with h1 | h1 | h1
    · exact hab h1
    · rw [bytesCompare_eq_zero_iff] at h1
      rw [h1] at hac; exact hbc hac
    · have hba : bytesCompare b.key a.key = -1 := by rw [bytesCompare_swap, h1]
      exact hbc (bytesCompare_lt_trans hba hac)

/-! ## The insertion sort meets the contract of the library sort -/

theorem insertBack_perm {α : Type} (less : α → α → Bool) (x : α) (l : List α) :
    (insertBack less x l).Perm (x :: l) := by
  induction l with
  | nil => simp [insertBack]
  | cons y ys ih =>
    simp only [insertBack]
    split
    · exact (List.Perm.cons y ih).trans (List.Perm.swap x y ys)
    · exact List.Perm.refl _

theorem foldl_insertBack_perm {α : Type} (less : α → α → Bool) (data front : List α) :
    (data.foldl (fun front x => insertBack less x front) front).Perm (data ++ front) := by
  induction data generalizing front with
  | nil => simp
  | cons x xs ih =>
    simp only [List.foldl_cons, List.cons_append]
    refine (ih _).trans ?_
    refine (List.Perm.append_left xs (insertBack_perm less x front)).trans ?_
    exact List.perm_middle

theorem insertionSortLessFunc_perm {α : Type} (less : α → α → Bool) (data : List α) :
    (insertionSortLessFunc less data).Perm data := by
  unfold insertionSortLessFunc
  refine (List.reverse_perm _).trans ?_
  simpa using foldl_insertBack_perm less data []

theorem LessOrdering.asymm {α : Type} {less : α → α → Bool} (h : LessOrdering less)
    {a b : α} (hab : less a b = true) : less b a = false := by
  cases hba : less b a with
  | false => rfl
  | true =>
    have := h.2.1 a b a hab hba
    rw [h.1 a] at this
    exact absurd this (by simp)

theorem insertBack_mem {α : Type} (less : α → α → Bool) (x z : α) (l : List α) :
    z ∈ insertBack less x l ↔ z = x ∨ z ∈ l := by
  rw [(insertBack_perm less x l).mem_iff]; simp

theorem insertBack_sorted {α : Type} {less : α → α → Bool} (h : LessOrdering less) (x : α)
    (l : List α) (hl : l.Pairwise (fun a b => less a b = false)) :
    (insertBack less x l).Pairwise (fun a b => less a b = false) := by
  induction l with
  | nil => simp [insertBack]
  | cons y ys ih =>
    rw [List.pairwise_cons] at hl
    simp only [insertBack]
    split
    · rename_i hxy
      rw [List.pairwise_cons]
      refine ⟨?_, ih hl.2⟩
      intro z hz
      rw [insertBack_mem] at hz
      rcases hz with rfl | hz
      · exact h.asymm hxy
      · exact hl.1 z hz
    · rename_i hxy
      have hxy' : less x y = false := by simpa using hxy
      rw [List.pairwise_cons]
      refine ⟨?_, List.pairwise_cons.2 hl⟩
      intro z hz
      rcases List.mem_cons.1 hz with rfl | hz
      · exact hxy'
      · exact h.2.2 x y z hxy' (hl.1 z hz)

theorem foldl_insertBack_sorted {α : Type} {less : α → α → Bool} (h : LessOrdering less)
    (data front : List α) (hf : front.Pairwise (fun a b => less a b = false)) :
    (data.foldl (fun front x => insertBack less x front) front).Pairwise
      (fun a b => less a b = false) := by
  induction data generalizing front with
  | nil => simpa using hf
  | cons x xs ih => exact ih _ (insertBack_sorted h x front hf)

theorem insertionSortLessFunc_sorted {α : Type} {less : α → α → Bool} (h : LessOrdering less)
    (data : List α) :
    (insertionSortLessFunc less data).Pairwise (fun a b => less b a = false) := by
  unfold insertionSortLessFunc
  rw [List.pairwise_reverse]
  exact foldl_insertBack_sorted h data [] List.Pairwise.nil

theorem insertionSortLessFunc_contract : SliceSort.Contract insertionSortLessFunc :=
  ⟨insertionSortLessFunc_perm, fun _ rows h => insertionSortLessFunc_sorted h rows⟩

/-! ## Facts about key slices -/

theorem KeySlice.store_append (out rest spare : List Bytes) (r v : Bytes) :
    KeySlice.store ⟨out ++ r :: rest, spare⟩ out.length v = some ⟨out ++ v :: rest, spare⟩ := by
  simp [KeySlice.store, KeySlice.len]

theorem KeySlice.store_eq_none (s : KeySlice) (k : Nat) (v : Bytes) (h : s.len ≤ k) :
    s.store k v = none := by
  simp [KeySlice.store, Nat.not_lt.2 h]

theorem KeySlice.copyInto_append (out rest spare src : List Bytes) (hi : Nat)
    (h1 : src.length ≤ rest.length) (h2 : out.length + src.length ≤ hi)
    (h3 : hi ≤ out.length + rest.length + spare.length) :
    KeySlice.copyInto ⟨out ++ rest, spare⟩ out.length hi src =
      some (src.length, ⟨out ++ src ++ rest.drop src.length, spare⟩) := by
  have hlo : out.length ≤ hi := by omega
  have hcap : hi ≤ (KeySlice.mk (out ++ rest) spare).cap := by
    simp [KeySlice.cap]; omega
  have hmin : min (hi - out.length) src.length = src.length := by omega
  simp only [KeySlice.copyInto, hlo, hcap, and_self, if_true, hmin, KeySlice.len]
  simp only [List.take_length, Option.some.injEq, Prod.mk.injEq, true_and, KeySlice.mk.injEq]
  have e1 : (out ++ rest ++ spare).take out.length = out := by
    rw [List.append_assoc, List.take_left']; rfl
  have e2 : (out ++ rest ++ spare).drop (out.length + src.length) =
      rest.drop src.length ++ spare := by
    rw [List.append_assoc, ← List.drop_drop, List.drop_left']
    · rw [List.drop_append_of_le_length h1]
    · rfl
  rw [e1, e2]
  have hlen : (out ++ rest).length = (out ++ src ++ rest.drop src.length).length := by
    simp only [List.length_append, List.length_drop]; omega
  rw [hlen, ← List.append_assoc]
  constructor
  · rw [List.take_left']; rfl
  · rw [List.drop_left']; rfl

theorem KeySlice.reslice_append (res rest spare : List Bytes) :
    KeySlice.reslice ⟨res ++ rest, spare⟩ res.length = some ⟨res, rest ++ spare⟩ := by
  have hcap : res.length ≤ (KeySlice.mk (res ++ rest) spare).cap := by
    simp [KeySlice.cap]; omega
  simp only [KeySlice.reslice, hcap, if_true, Option.some.injEq, KeySlice.mk.injEq]
  rw [List.append_assoc]
  constructor
  · rw [List.take_left']; rfl
  · rw [List.drop_left']; rfl

theorem KeySlice.slice_elems (s : KeySlice) (lo hi : Nat) (h1 : lo ≤ hi) (h2 : hi ≤ s.len) :
    s.slice lo hi = some ((s.elems.drop lo).take (hi - lo)) := by
  have hcap : hi ≤ s.cap := by simp only [KeySlice.cap, KeySlice.len] at *; omega
  simp only [KeySlice.slice, h1, hcap, and_self, if_true, Option.some.injEq]
  simp only [KeySlice.len] at h2
  rw [List.drop_append_of_le_length (by omega)]
  rw [List.take_append_of_le_length (by simp; omega)]

theorem KeySlice.grow_length (s : KeySlice) (n : Nat) :
    ∃ s', s.grow n = some s' ∧ s'.elems.length = n := by
  unfold KeySlice.grow
  by_cases h : s.cap < n
  · exact ⟨KeySlice.make n, by simp [h], by simp [KeySlice.make]⟩
  · have h' : n ≤ s.cap := Nat.not_lt.1 h
    refine ⟨⟨(s.elems ++ s.spare).take n, (s.elems ++ s.spare).drop n⟩, ?_, ?_⟩
    · simp [h, KeySlice.reslice, h']
    · simp only [KeySlice.cap] at h'
      simp; omega

/-! ## The loops of the key merger -/

theorem getElem?_length_append {α : Type} (pre post : List α) (a : α) :
    (pre ++ a :: post)[pre.length]? = some a := by
  rw [List.getElem?_append_right (Nat.le_refl _)]
  simp

theorem setTagsLoop_append (tags : Tags) (out rest spare : List Bytes)
    (h : tags.length ≤ rest.length) :
    setTagsLoop tags out.length ⟨out ++ rest, spare⟩ =
      some ⟨out ++ tagKeys tags ++ rest.drop tags.length, spare⟩ := by
  induction tags generalizing out rest with
  | nil => simp [setTagsLoop, tagKeys]
  | cons t ts ih =>
    cases rest with
    | nil => simp at h
    | cons r rest =>
      simp only [List.length_cons, Nat.add_le_add_iff_right] at h
      simp only [setTagsLoop, KeySlice.store_append, Option.bind_eq_bind, Option.some_bind]
      have := ih (out ++ [t.Key]) rest h
      simp only [List.length_append, List.length_singleton, List.append_assoc,
        List.singleton_append] at this
      rw [this]
      simp [tagKeys]

theorem matchLoop_append (keys : List Bytes) (tags : Tags) (fuel : Nat)
    (kpre ks : List Bytes) (tpre ts : Tags) (hk : keys = kpre ++ ks) (ht : tags = tpre ++ ts)
    (hf : ks.length < fuel) :
    matchLoop keys tags fuel kpre.length tpre.length =
      some (kpre.length + matchLen ks (tagKeys ts), tpre.length + matchLen ks (tagKeys ts)) := by
  induction fuel generalizing kpre ks tpre ts with
  | zero => omega
  | succ fuel ih =>
    cases ks with
    | nil => simp [matchLoop, hk, matchLen]
    | cons a ks =>
      cases ts with
      | nil => simp [matchLoop, ht, matchLen, tagKeys]
      | cons t ts =>
        have h1 : kpre.length < keys.length := by simp [hk]
        have h2 : tpre.length < tags.length := by simp [ht]
        have e1 : keys[kpre.length]? = some a := by rw [hk]; exact getElem?_length_append _ _ _
        have e2 : tags[tpre.length]? = some t := by rw [ht]; exact getElem?_length_append _ _ _
        simp only [matchLoop, h1, h2, and_self, if_true, e1, e2, bytesCompare_eq_zero_iff]
        by_cases hat : a = t.Key
        · have := ih (kpre ++ [a]) ks (tpre ++ [t]) ts (by simp [hk]) (by simp [ht])
            (by simp only [List.length_cons] at hf; omega)
          simp only [List.length_append, List.length_singleton] at this
          simp only [hat, if_true, tagKeys, List.map_cons, matchLen]
          rw [this]
          simp only [tagKeys, Option.some.injEq, Prod.mk.injEq]
          omega
        · simp [hat, matchLen, tagKeys]

theorem tailLoop_append (tags : Tags) (fuel : Nat) (tpre ts : Tags) (out rest spare : List Bytes)
    (ht : tags = tpre ++ ts) (hf : ts.length < fuel) (hr : ts.length ≤ rest.length) :
    tailLoop tags fuel tpre.length out.length ⟨out ++ rest, spare⟩ =
      some (tags.length, out.length + ts.length,
        ⟨out ++ tagKeys ts ++ rest.drop ts.length, spare⟩) := by
  induction fuel generalizing tpre ts out rest with
  | zero => omega
  | succ fuel ih =>
    cases ts with
    | nil => simp [tailLoop, ht, tagKeys]
    | cons t ts =>
      cases rest with
      | nil => simp at hr
      | cons r rest =>
        have h2 : tpre.length < tags.length := by simp [ht]
        have e2 : tags[tpre.length]? = some t := by rw [ht]; exact getElem?_length_append _ _ _
        simp only [tailLoop, h2, if_true, e2, KeySlice.store_append, Option.bind_eq_bind,
          Option.some_bind]
        have := ih (tpre ++ [t]) ts (out ++ [t.Key]) rest (by simp [ht])
          (by simp only [List.length_cons] at hf; omega)
          (by simp only [List.length_cons] at hr; omega)
        simp only [List.length_append, List.length_singleton, List.append_assoc,
          List.singleton_append] at this
        rw [this]
        simp only [tagKeys, List.map_cons, List.length_cons, List.drop_succ_cons,
          List.append_assoc, List.cons_append, Option.some.injEq, Prod.mk.injEq, true_and,
          and_true]
        omega

theorem mergeKeys_nil_right (ks : List Bytes) : mergeKeys ks [] = ks := by
  cases ks <;> simp [mergeKeys]

theorem mergeKeys_nil_left (ts : List Bytes) : mergeKeys [] ts = ts := by
  simp [mergeKeys]

theorem mergeKeys_cons_cons (a t : Bytes) (ks ts : List Bytes) :
    mergeKeys (a :: ks) (t :: ts) =
      if bytesCompare a t < 0 then a :: mergeKeys ks (t :: ts)
      else if bytesCompare a t > 0 then t :: mergeKeys (a :: ks) ts
      else a :: mergeKeys ks ts := by
  rw [mergeKeys]

theorem mergeLoop_append (keys : List Bytes) (tags : Tags) (fuel : Nat)
    (kpre ks : List Bytes) (tpre ts : Tags) (out rest spare : List Bytes)
    (hk : keys = kpre ++ ks) (ht : tags = tpre ++ ts)
    (hf : ks.length + ts.length < fuel) (hr : ks.length + ts.length ≤ rest.length) :
    ∃ (kpre' ks' : List Bytes) (tpre' ts' : Tags) (o : List Bytes),
      mergeLoop keys tags fuel kpre.length tpre.length out.length ⟨out ++ rest, spare⟩ =
        some (kpre'.length, tpre'.length, out.length + o.length,
          ⟨out ++ o ++ rest.drop o.length, spare⟩) ∧
      keys = kpre' ++ ks' ∧ tags = tpre' ++ ts' ∧ (ks' = [] ∨ ts' = []) ∧
      mergeKeys ks (tagKeys ts) = o ++ mergeKeys ks' (tagKeys ts') ∧
      o.length + ks'.length + ts'.length ≤ ks.length + ts.length := by
  induction fuel generalizing kpre ks tpre ts out rest with
  | zero => omega
  | succ fuel ih =>
    cases ks with
    | nil =>
      refine ⟨kpre, [], tpre, ts, [], ?_, hk, ht, Or.inl rfl, by simp, by simp⟩
      simp [mergeLoop, hk]
    | cons a ks =>
      cases ts with
      | nil =>
        refine ⟨kpre, a :: ks, tpre, [], [], ?_, hk, ht, Or.inr rfl, by simp, by simp⟩
        simp [mergeLoop, ht]
      | cons t ts =>
        cases rest with
        | nil => simp at hr
        | cons r rest =>
          have h1 : kpre.length < keys.length := by simp [hk]
          have h2 : tpre.length < tags.length := by simp [ht]
          have e1 : keys[kpre.length]? = some a := by
            rw [hk]; exact getElem?_length_append _ _ _
          have e2 : tags[tpre.length]? = some t := by
            rw [ht]; exact getElem?_length_append _ _ _
          simp only [List.length_cons] at hf hr
          simp only [mergeLoop, h1, h2, and_self, if_true, e1, e2, KeySlice.store_append,
            Option.bind_eq_bind, Option.some_bind]
          simp only [tagKeys, List.map_cons, mergeKeys_cons_cons]
          by_cases c1 : bytesCompare a t.Key < 0
          · obtain ⟨kpre', ks', tpre', ts', o, h, hk', ht', hor, hm, hl⟩ :=
              ih (kpre ++ [a]) ks tpre (t :: ts) (out ++ [a]) rest (by simp [hk]) ht
                (by simp only [List.length_cons]; omega) (by simp only [List.length_cons]; omega)
            refine ⟨kpre', ks', tpre', ts', a :: o, ?_, hk', ht', hor, ?_, ?_⟩
            · simp only [List.length_append, List.length_singleton, List.append_assoc,
                List.singleton_append] at h
              simp only [c1, if_true, h, List.length_cons, List.drop_succ_cons,
                List.cons_append, Option.some.injEq, Prod.mk.injEq, and_true, true_and]
              exact ⟨by omega, by simp⟩
            · simp only [c1, if_true, List.cons_append, List.cons.injEq, true_and]
              simpa [tagKeys] using hm
            · simp only [List.length_cons] at hl ⊢; omega
          · by_cases c2 : bytesCompare a t.Key > 0
            · obtain ⟨kpre', ks', tpre', ts', o, h, hk', ht', hor, hm, hl⟩ :=
                ih kpre (a :: ks) (tpre ++ [t]) ts (out ++ [t.Key]) rest hk (by simp [ht])
                  (by simp only [List.length_cons]; omega)
                  (by simp only [List.length_cons]; omega)
              refine ⟨kpre', ks', tpre', ts', t.Key :: o, ?_, hk', ht', hor, ?_, ?_⟩
              · simp only [List.length_append, List.length_singleton, List.append_assoc,
                  List.singleton_append] at h
                simp only [c1, c2, if_true, if_false, h, List.length_cons, List.drop_succ_cons,
                  List.cons_append, Option.some.injEq, Prod.mk.injEq, and_true, true_and]
                exact ⟨by omega, by simp⟩
              · simp only [c1, c2, if_true, if_false, List.cons_append, List.cons.injEq,
                  true_and]
                simpa [tagKeys] using hm
              · simp only [List.length_cons] at hl ⊢; omega
            · obtain ⟨kpre', ks', tpre', ts', o, h, hk', ht', hor, hm, hl⟩ :=
                ih (kpre ++ [a]) ks (tpre ++ [t]) ts (out ++ [a]) rest (by simp [hk])
                  (by simp [ht]) (by omega) (by omega)
              refine ⟨kpre', ks', tpre', ts', a :: o, ?_, hk', ht', hor, ?_, ?_⟩
              · simp only [List.length_append, List.length_singleton, List.append_assoc,
                  List.singleton_append] at h
                simp only [c1, c2, if_false, h, List.length_cons, List.drop_succ_cons,
                  List.cons_append, Option.some.injEq, Prod.mk.injEq, and_true, true_and]
                exact ⟨by omega, by simp⟩
              · simp only [c1, c2, if_false, List.cons_append, List.cons.injEq, true_and]
                simpa [tagKeys] using hm
              · simp only [List.length_cons] at hl ⊢; omega

theorem matchLen_le_left (ks ts : List Bytes) : matchLen ks ts ≤ ks.length := by
  induction ks generalizing ts with
  | nil => simp [matchLen]
  | cons a ks ih =>
    cases ts with
    | nil => simp [matchLen]
    | cons t ts =>
      simp only [matchLen]
      split
      · have := ih ts; simp only [List.length_cons]; omega
      · omega

theorem matchLen_le_right (ks ts : List Bytes) : matchLen ks ts ≤ ts.length := by
  induction ks generalizing ts with
  | nil => simp [matchLen]
  | cons a ks ih =>
    cases ts with
    | nil => simp [matchLen]
    | cons t ts =>
      simp only [matchLen]
      split
      · have := ih ts; simp only [List.length_cons]; omega
      · omega

theorem mergeKeys_matchLen (q : Nat) (ks ts : List Bytes) (h : q ≤ matchLen ks ts) :
    mergeKeys ks ts = ks.take q ++ mergeKeys (ks.drop q) (ts.drop q) := by
  induction q generalizing ks ts with
  | zero => simp
  | succ q ih =>
    cases ks with
    | nil => simp [matchLen] at h
    | cons a ks =>
      cases ts with
      | nil => simp [matchLen] at h
      | cons t ts =>
        simp only [matchLen] at h
        split at h
        · rename_i hat
          subst hat
          have h' : q ≤ matchLen ks ts := by omega
          simp only [mergeKeys_cons_cons, bytesCompare_self, lt_self_iff_false, if_false,
            gt_iff_lt, List.take_succ_cons, List.drop_succ_cons, List.cons_append,
            List.cons.injEq, true_and]
          exact ih ks ts h'
        · omega

theorem mergeKeys_of_matchLen_eq (ks ts : List Bytes) (h : matchLen ks ts = ts.length) :
    mergeKeys ks ts = ks := by
  rw [mergeKeys_matchLen (matchLen ks ts) ks ts (Nat.le_refl _), h]
  simp [mergeKeys_nil_right]

theorem matchLen_eq_iff (ks ts : List Bytes) : matchLen ks ts = ts.length ↔ ts <+: ks := by
  induction ks generalizing ts with
  | nil => cases ts <;> simp [matchLen]
  | cons a ks ih =>
    cases ts with
    | nil => simp [matchLen]
    | cons t ts =>
      simp only [matchLen, List.length_cons, List.cons_prefix_cons]
      by_cases hat : a = t
      · subst hat; simp [ih]
      · simp only [hat, if_false]
        constructor
        · intro h; omega
        · intro h; exact absurd h.1.symm hat

theorem mergeLoop_at (keys : List Bytes) (tags : Tags) (fuel i j k : Nat) (keya : KeySlice)
    (kpre ks : List Bytes) (tpre ts : Tags) (out rest spare : List Bytes)
    (hk : keys = kpre ++ ks) (ht : tags = tpre ++ ts)
    (hi : i = kpre.length) (hj : j = tpre.length) (hko : k = out.length)
    (hkeya : keya = ⟨out ++ rest, spare⟩)
    (hf : ks.length + ts.length < fuel) (hr : ks.length + ts.length ≤ rest.length) :
    ∃ (kpre' ks' : List Bytes) (tpre' ts' : Tags) (o : List Bytes),
      mergeLoop keys tags fuel i j k keya =
        some (kpre'.length, tpre'.length, (out ++ o).length,
          ⟨(out ++ o) ++ rest.drop o.length, spare⟩) ∧
      keys = kpre' ++ ks' ∧ tags = tpre' ++ ts' ∧ (ks' = [] ∨ ts' = []) ∧
      mergeKeys ks (tagKeys ts) = o ++ mergeKeys ks' (tagKeys ts') ∧
      o.length + ks'.length + ts'.length ≤ ks.length + ts.length := by
  subst hi hj hko hkeya
  obtain ⟨kpre', ks', tpre', ts', o, h, rest'⟩ :=
    mergeLoop_append keys tags fuel kpre ks tpre ts out rest spare hk ht hf hr
  exact ⟨kpre', ks', tpre', ts', o, by rw [h, List.length_append], rest'⟩

theorem tailLoop_at (tags : Tags) (fuel j k : Nat) (keya : KeySlice) (tpre ts : Tags)
    (out rest spare : List Bytes)
    (ht : tags = tpre ++ ts) (hj : j = tpre.length) (hko : k = out.length)
    (hkeya : keya = ⟨out ++ rest, spare⟩) (hf : ts.length < fuel)
    (hr : ts.length ≤ rest.length) :
    tailLoop tags fuel j k keya =
      some (tags.length, (out ++ tagKeys ts).length,
        ⟨(out ++ tagKeys ts) ++ rest.drop ts.length, spare⟩) := by
  subst hj hko hkeya
  rw [tailLoop_append tags fuel tpre ts out rest spare ht hf hr]
  simp [tagKeys]

theorem KeySlice.copyInto_at (dst : KeySlice) (lo hi : Nat) (out rest spare src : List Bytes)
    (hdst : dst = ⟨out ++ rest, spare⟩) (hlo : lo = out.length)
    (h1 : src.length ≤ rest.length) (h2 : out.length + src.length ≤ hi)
    (h3 : hi ≤ out.length + rest.length + spare.length) :
    dst.copyInto lo hi src =
      some (src.length, ⟨(out ++ src) ++ rest.drop src.length, spare⟩) := by
  subst hdst hlo
  exact KeySlice.copyInto_append out rest spare src hi h1 h2 h3

theorem KeySlice.reslice_at (s : KeySlice) (k : Nat) (res rest spare : List Bytes)
    (hs : s = ⟨res ++ rest, spare⟩) (hk : k = res.length) :
    s.reslice k = some ⟨res, rest ++ spare⟩ := by
  subst hs hk
  exact KeySlice.reslice_append res rest spare

theorem matchLoop_start (keys : List Bytes) (tags : Tags) :
    matchLoop keys tags (keys.length + 1) 0 0 =
      some (matchLen keys (tagKeys tags), matchLen keys (tagKeys tags)) := by
  have := matchLoop_append keys tags (keys.length + 1) [] keys [] tags rfl rfl (by omega)
  simpa using this

theorem copyRest_at (ke ksp kpre ks : List Bytes) (i k : Nat) (keya : KeySlice)
    (res rest spare : List Bytes) (hk : ke = kpre ++ ks) (hi : i = kpre.length)
    (hkeya : keya = ⟨res ++ rest, spare⟩) (hko : k = res.length)
    (hr : ks.length ≤ rest.length) :
    copyRest ⟨ke, ksp⟩ i k keya =
      some ((res ++ ks).length, ⟨(res ++ ks) ++ rest.drop ks.length, spare⟩) := by
  unfold copyRest
  subst hko
  cases ks with
  | nil =>
    have : ¬ i < (KeySlice.mk ke ksp).len := by simp [KeySlice.len, hk, hi]
    simp [this, hkeya]
  | cons a ks =>
    have hlt : i < (KeySlice.mk ke ksp).len := by simp [KeySlice.len, hk, hi]
    have hs : (KeySlice.mk ke ksp).slice i (KeySlice.mk ke ksp).len = some (a :: ks) := by
      rw [KeySlice.slice_elems _ _ _ (Nat.le_of_lt hlt) (Nat.le_refl _)]
      simp [KeySlice.len, hk, hi]
    have hc := KeySlice.copyInto_at keya res.length keya.len res rest spare (a :: ks) hkeya rfl hr
      (by simp [hkeya, KeySlice.len]; simp at hr; omega)
      (by simp [hkeya, KeySlice.len])
    simp only [hlt, if_true, hs, Option.bind_eq_bind, Option.some_bind, hc,
      List.length_append]

theorem mergeFrom_spec (ke ksp : List Bytes) (tags : Tags) (q : Nat) (e0 sp0 : List Bytes)
    (hqk : q ≤ ke.length) (hqt : q ≤ tags.length) (hl : e0.length = ke.length + tags.length) :
    (mergeFrom ⟨ke, ksp⟩ tags q q ⟨e0, sp0⟩).map KeySlice.elems =
      some (ke.take q ++ mergeKeys (ke.drop q) (tagKeys (tags.drop q))) := by
  unfold mergeFrom
  have hs : (KeySlice.mk ke ksp).slice 0 q = some (ke.take q) := by
    rw [KeySlice.slice_elems _ _ _ (Nat.zero_le _) (by simpa [KeySlice.len] using hqk)]
    simp
  have hlenq : (ke.take q).length = q := by simp [hqk]
  have hc := KeySlice.copyInto_at ⟨e0, sp0⟩ 0 q [] e0 sp0 (ke.take q) rfl rfl
    (by rw [hlenq]; omega) (by simp [hlenq]) (by simp; omega)
  simp only [List.nil_append, hlenq] at hc
  simp only [hs, Option.bind_eq_bind, Option.some_bind, hc, KeySlice.len]
  obtain ⟨kpre', ks', tpre', ts', o, hm, hk', ht', hor, hmk, hlen⟩ :=
    mergeLoop_at ke tags (ke.length + tags.length + 1) q q q ⟨ke.take q ++ e0.drop q, sp0⟩
      (ke.take q) (ke.drop q) (tags.take q) (tags.drop q) (ke.take q) (e0.drop q) sp0
      (by simp) (by simp) hlenq.symm (by simp [hqt]) hlenq.symm rfl
      (by simp; omega) (by simp; omega)
  simp only [hm, Option.some_bind]
  have hlen' : ks'.length + ts'.length ≤ (e0.drop q).length - o.length := by
    simp only [List.length_drop] at hlen ⊢; omega
  have hcr := copyRest_at ke ksp kpre' ks' kpre'.length (ke.take q ++ o).length
    ⟨(ke.take q ++ o) ++ (e0.drop q).drop o.length, sp0⟩ (ke.take q ++ o)
    ((e0.drop q).drop o.length) sp0 hk' rfl rfl rfl (by simp only [List.length_drop] at hlen' ⊢; omega)
  simp only [hcr, Option.some_bind]
  rcases hor with hks | hts
  · subst hks
    have htl := tailLoop_at tags (tags.length + 1) tpre'.length (ke.take q ++ o ++ []).length
      ⟨(ke.take q ++ o ++ []) ++ ((e0.drop q).drop o.length).drop ([] : List Bytes).length, sp0⟩
      tpre' ts' (ke.take q ++ o ++ []) (((e0.drop q).drop o.length).drop ([] : List Bytes).length)
      sp0 ht' rfl rfl rfl
      (by have := congrArg List.length ht'; simp at this; omega)
      (by simp only [List.length_drop, List.length_nil] at hlen' ⊢; omega)
    simp only [htl, Option.some_bind]
    rw [KeySlice.reslice_at _ _ (ke.take q ++ o ++ [] ++ tagKeys ts') _ sp0 rfl rfl]
    simp only [Option.map_some', Option.some.injEq]
    rw [hmk, mergeKeys_nil_left]; simp
  · subst hts
    have htl := tailLoop_at tags (tags.length + 1) tpre'.length (ke.take q ++ o ++ ks').length
      ⟨(ke.take q ++ o ++ ks') ++ ((e0.drop q).drop o.length).drop ks'.length, sp0⟩
      tpre' [] (ke.take q ++ o ++ ks') (((e0.drop q).drop o.length).drop ks'.length)
      sp0 ht' rfl rfl rfl (by simp) (by simp)
    simp only [htl, Option.some_bind]
    rw [KeySlice.reslice_at _ _ (ke.take q ++ o ++ ks' ++ tagKeys []) _ sp0 rfl rfl]
    simp only [Option.map_some', Option.some.injEq]
    rw [hmk]; simp [tagKeys, mergeKeys_nil_right]

theorem mergeTagKeys_same (km : keyMerger) (tags : Tags)
    (h : matchLen km.get (tagKeys tags) = tags.length) : km.mergeTagKeys tags = some km := by
  unfold keyMerger.mergeTagKeys
  simp only [keyMerger.get] at h
  simp only [KeySlice.len, matchLoop_start, Option.bind_eq_bind, Option.some_bind, h, if_true]

theorem mergeTagKeys_swap (km : keyMerger) (tags : Tags)
    (h : matchLen km.get (tagKeys tags) ≠ tags.length) :
    ∃ keya : KeySlice,
      km.mergeTagKeys tags =
        some (keyMerger.setKeysAt { km with i := (km.i + 1) % 2 } ((km.i + 1) % 2) keya) ∧
      keya.elems = mergeKeys km.get (tagKeys tags) := by
  unfold keyMerger.mergeTagKeys
  simp only [keyMerger.get] at h ⊢
  generalize km.keysAt (km.i % 2) = keys at h ⊢
  obtain ⟨ke, ksp⟩ := keys
  simp only at h
  simp only [KeySlice.len, matchLoop_start, Option.bind_eq_bind, Option.some_bind, h, if_false]
  obtain ⟨keya0, hk0, hlen0⟩ :=
    KeySlice.grow_length (km.keysAt ((km.i + 1) % 2)) (ke.length + tags.length)
  rw [hk0]
  simp only [Option.some_bind]
  obtain ⟨e0, sp0⟩ := keya0
  simp only at hlen0
  generalize hp : matchLen ke (tagKeys tags) = p at h ⊢
  have hpk : p ≤ ke.length := hp ▸ matchLen_le_left _ _
  have hpt : p ≤ tags.length := by
    have := matchLen_le_right ke (tagKeys tags)
    rw [hp] at this
    simpa [tagKeys] using this
  have hqq : ∃ q, (if p > 0 then (p - 1, p - 1) else (p, p)) = (q, q) ∧ q ≤ p := by
    by_cases h0 : p > 0
    · exact ⟨p - 1, by simp [h0], by omega⟩
    · exact ⟨p, by simp [h0], by omega⟩
  obtain ⟨q, hq, hqp⟩ := hqq
  rw [hq]
  simp only
  have hm := mergeFrom_spec ke ksp tags q e0 sp0 (by omega) (by omega) hlen0
  obtain ⟨keya, hka, hke⟩ := Option.map_eq_some'.1 hm
  refine ⟨keya, by rw [hka]; rfl, ?_⟩
  rw [hke, mergeKeys_matchLen q ke (tagKeys tags) (by omega)]
  simp [tagKeys]

theorem emod_two_emod_two (n : Int) : (n % 2) % 2 = n % 2 := Int.emod_emod_of_dvd n (dvd_refl 2)

theorem mergeTagKeys_get (km : keyMerger) (tags : Tags) :
    ∃ km', km.mergeTagKeys tags = some km' ∧ km'.get = mergeKeys km.get (tagKeys tags) := by
  by_cases h : matchLen km.get (tagKeys tags) = tags.length
  · refine ⟨km, mergeTagKeys_same km tags h, ?_⟩
    rw [mergeKeys_of_matchLen_eq]
    simpa [tagKeys] using h
  · obtain ⟨keya, h1, h2⟩ := mergeTagKeys_swap km tags h
    refine ⟨_, h1, ?_⟩
    rw [← h2]
    simp only [keyMerger.get, keyMerger.setKeysAt, keyMerger.keysAt]
    split <;> simp_all [emod_two_emod_two]

theorem setTags_spec (km : keyMerger) (tags : Tags) :
    ∃ sp, km.setTags tags = some { km with i := 0, keys0 := ⟨tagKeys tags, sp⟩ } := by
  unfold keyMerger.setTags
  obtain ⟨k0, hk0, hlen0⟩ := KeySlice.grow_length km.keys0 tags.length
  obtain ⟨e0, sp0⟩ := k0
  simp only at hlen0
  have := setTagsLoop_append tags [] e0 sp0 (by omega)
  simp only [List.length_nil, List.nil_append] at this
  refine ⟨sp0, ?_⟩
  simp only [hk0, Option.bind_eq_bind, Option.some_bind, this]
  have : e0.drop tags.length = [] := by simp [hlen0]
  simp [this]

theorem setTags_get (km : keyMerger) (tags : Tags) :
    ∃ km', km.setTags tags = some km' ∧ km'.i = 0 ∧ km'.get = tagKeys tags := by
  obtain ⟨sp, h⟩ := setTags_spec km tags
  exact ⟨_, h, rfl, rfl⟩

/-! ## The merge on ordered lists -/

theorem mergeKeys_mem (ks ts : List Bytes) (x : Bytes) :
    x ∈ mergeKeys ks ts ↔ x ∈ ks ∨ x ∈ ts := by
  induction ks generalizing ts with
  | nil => simp [mergeKeys_nil_left]
  | cons a ks ihk =>
    induction ts with
    | nil => simp [mergeKeys_nil_right]
    | cons t ts iht =>
      rw [mergeKeys_cons_cons]
      by_cases c1 : bytesCompare a t < 0
      · simp only [c1, if_true, List.mem_cons, ihk]
        tauto
      · by_cases c2 : bytesCompare a t > 0
        · simp only [c1, c2, if_true, if_false, List.mem_cons, iht]
          tauto
        · have hat : a = t := by
            rw [← bytesCompare_eq_zero_iff]; omega
          subst hat
          simp only [c1, c2, if_false, List.mem_cons, ihk]
          tauto

theorem bytesCompare_neg_trans {a b c : Bytes} (hab : bytesCompare a b < 0)
    (hbc : bytesCompare b c < 0) : bytesCompare a c < 0 := by
  rw [bytesCompare_lt_iff] at *
  exact bytesCompare_lt_trans hab hbc

theorem bytesCompare_neg_asymm {a b : Bytes} (hab : bytesCompare a b < 0) :
    ¬ bytesCompare b a < 0 := by
  rw [bytesCompare_swap a b]; omega

theorem bytesCompare_neg_irrefl (a : Bytes) : ¬ bytesCompare a a < 0 := by
  rw [bytesCompare_self]; omega

theorem mergeKeys_strictAsc (ks ts : List Bytes) (hk : StrictAsc ks) (ht : StrictAsc ts) :
    StrictAsc (mergeKeys ks ts) := by
  induction ks generalizing ts with
  | nil => simpa [mergeKeys_nil_left] using ht
  | cons a ks ihk =>
    induction ts with
    | nil => simpa [mergeKeys_nil_right] using hk
    | cons t ts iht =>
      have hk' := List.pairwise_cons.1 hk
      have ht' := List.pairwise_cons.1 ht
      rw [mergeKeys_cons_cons]
      by_cases c1 : bytesCompare a t < 0
      · simp only [c1, if_true]
        refine List.pairwise_cons.2 ⟨?_, ihk _ hk'.2 ht⟩
        intro x hx
        rcases (mergeKeys_mem _ _ _).1 hx with h | h
        · exact hk'.1 x h
        · rcases List.mem_cons.1 h with rfl | h
          · exact c1
          · exact bytesCompare_neg_trans c1 (ht'.1 x h)
      · by_cases c2 : bytesCompare a t > 0
        · simp only [c1, c2, if_true, if_false]
          have c2' : bytesCompare t a < 0 := by rw [bytesCompare_swap a t]; omega
          refine List.pairwise_cons.2 ⟨?_, iht ht'.2⟩
          intro x hx
          rcases (mergeKeys_mem _ _ _).1 hx with h | h
          · rcases List.mem_cons.1 h with rfl | h
            · exact c2'
            · exact bytesCompare_neg_trans c2' (hk'.1 x h)
          · exact ht'.1 x h
        · have hat : a = t := by
            rw [← bytesCompare_eq_zero_iff]; omega
          subst hat
          simp only [c1, c2, if_false]
          refine List.pairwise_cons.2 ⟨?_, ihk _ hk'.2 ht'.2⟩
          intro x hx
          rcases (mergeKeys_mem _ _ _).1 hx with h | h
          · exact hk'.1 x h
          · exact ht'.1 x h

theorem strictAsc_ext {l₁ l₂ : List Bytes} (h₁ : StrictAsc l₁) (h₂ : StrictAsc l₂)
    (h : ∀ x, x ∈ l₁ ↔ x ∈ l₂) : l₁ = l₂ := by
  induction l₁ generalizing l₂ with
  | nil =>
    cases l₂ with
    | nil => rfl
    | cons b l₂ => exact absurd ((h b).2 (List.mem_cons_self _ _)) (List.not_mem_nil _)
  | cons a l₁ ih =>
    cases l₂ with
    | nil => exact absurd ((h a).1 (List.mem_cons_self _ _)) (List.not_mem_nil _)
    | cons b l₂ =>
      have h₁' := List.pairwise_cons.1 h₁
      have h₂' := List.pairwise_cons.1 h₂
      have hab : a = b := by
        rcases List.mem_cons.1 ((h a).1 (List.mem_cons_self _ _)) with e | ha
        · exact e
        · rcases List.mem_cons.1 ((h b).2 (List.mem_cons_self _ _)) with e | hb
          · exact e.symm
          · exact absurd (h₁'.1 b hb) (bytesCompare_neg_asymm (h₂'.1 a ha))
      subst hab
      congr 1
      refine ih h₁'.2 h₂'.2 ?_
      intro x
      constructor
      · intro hx
        rcases List.mem_cons.1 ((h x).1 (List.mem_cons_of_mem _ hx)) with e | hx'
        · subst e; exact absurd (h₁'.1 x hx) (bytesCompare_neg_irrefl x)
        · exact hx'
      · intro hx
        rcases List.mem_cons.1 ((h x).2 (List.mem_cons_of_mem _ hx)) with e | hx'
        · subst e; exact absurd (h₂'.1 x hx) (bytesCompare_neg_irrefl x)
        · exact hx'

theorem StrictAsc.nodup {l : List Bytes} (h : StrictAsc l) : l.Nodup := by
  refine List.Pairwise.imp ?_ h
  intro a b hab e
  subst e
  exact bytesCompare_neg_irrefl a hab

theorem mergeKeys_sublist (ks ts : List Bytes) (hk : Asc ks) (hs : ts.Sublist ks) :
    mergeKeys ks ts = ks := by
  induction ks generalizing ts with
  | nil => simp [List.sublist_nil.1 hs, mergeKeys_nil_left]
  | cons a ks ih =>
    cases ts with
    | nil => simp [mergeKeys_nil_right]
    | cons t ts =>
      have hk' := List.pairwise_cons.1 hk
      rw [mergeKeys_cons_cons]
      by_cases hat : a = t
      · subst hat
        have hs' : ts.Sublist ks := List.cons_sublist_cons.1 hs
        simp [bytesCompare_self, ih ts hk'.2 hs']
      · have hs' : (t :: ts).Sublist ks := by
          cases hs with
          | cons _ h => exact h
          | cons₂ _ h => exact absurd rfl hat
        have hmem : t ∈ ks := hs'.subset (List.mem_cons_self _ _)
        have hle := hk'.1 t hmem
        have hne : bytesCompare a t ≠ 0 := fun e => hat ((bytesCompare_eq_zero_iff a t).1 e)
        have c1 : bytesCompare a t < 0 := by omega
        simp [c1, ih _ hk'.2 hs']

/-! ## The walk over the sorted rows -/

theorem runLen_le (rowKey : Bytes) (rows : List sortRow) : runLen rowKey rows ≤ rows.length := by
  induction rows with
  | nil => simp [runLen]
  | cons r rest ih =>
    simp only [runLen]
    split
    · simp only [List.length_cons]; omega
    · omega

theorem groupLoop_append (rows : List sortRow) (rowKey : Bytes) (fuel : Nat) (km : keyMerger)
    (pre post : List sortRow) (hrows : rows = pre ++ post) (hf : post.length < fuel) :
    ∃ km', groupLoop rows rowKey fuel km pre.length =
        some (km', pre.length + runLen rowKey post) ∧
      km'.get = (post.take (runLen rowKey post)).foldl
        (fun acc r => mergeKeys acc (tagKeys r.row.tags)) km.get := by
  induction fuel generalizing km pre post with
  | zero => omega
  | succ fuel ih =>
    cases post with
    | nil => exact ⟨km, by simp [groupLoop, hrows, runLen], by simp [runLen]⟩
    | cons r post =>
      have h1 : pre.length < rows.length := by simp [hrows]
      have e1 : rows[pre.length]? = some r := by
        rw [hrows]; exact getElem?_length_append _ _ _
      simp only [groupLoop, h1, if_true, e1, bytesEqual_iff, runLen]
      simp only [List.length_cons] at hf
      by_cases hkey : rowKey = r.key
      · obtain ⟨km1, hm1, hg1⟩ := mergeTagKeys_get km r.row.tags
        obtain ⟨km', hl, hg⟩ := ih km1 (pre ++ [r]) post (by simp [hrows]) (by omega)
        refine ⟨km', ?_, ?_⟩
        · simp only [List.length_append, List.length_singleton] at hl
          simp only [← hkey, if_true, hm1, Option.bind_eq_bind, Option.some_bind, hl,
            Option.some.injEq, Prod.mk.injEq, true_and]
          omega
        · simp only [← hkey, if_true, List.take_succ_cons, List.foldl_cons]
          rw [hg, hg1]
      · exact ⟨km, by simp [hkey], by simp [hkey]⟩

theorem nextGroup_append (c : groupResultSet) (pre post : List sortRow) (first : sortRow)
    (hrows : c.rows = pre ++ first :: post) (hi : c.i = pre.length) :
    ∃ km', c.nextGroup = some { c with
      km := km'
      gc := ⟨0, first :: post.take (runLen first.key post),
        groupKeys first (post.take (runLen first.key post))⟩
      i := pre.length + 1 + runLen first.key post } := by
  unfold groupResultSet.nextGroup
  have e1 : c.rows[pre.length]? = some first := by
    rw [hrows]; exact getElem?_length_append _ _ _
  obtain ⟨km0, hs0, _, hg0⟩ := setTags_get c.km first.row.tags
  obtain ⟨km', hl, hg⟩ := groupLoop_append c.rows first.key (c.rows.length + 1) km0
    (pre ++ [first]) post (by simp [hrows]) (by simp [hrows]; omega)
  simp only [List.length_append, List.length_singleton] at hl
  have hn := runLen_le first.key post
  have hsl : sliceRows c.rows pre.length (pre.length + 1 + runLen first.key post) =
      some (first :: post.take (runLen first.key post)) := by
    have hb : pre.length ≤ pre.length + 1 + runLen first.key post ∧
        pre.length + 1 + runLen first.key post ≤ c.rows.length := by
      simp [hrows]; omega
    simp only [sliceRows, hb, and_self, if_true, Option.some.injEq]
    rw [hrows, List.drop_left']
    · have : pre.length + 1 + runLen first.key post - pre.length =
          runLen first.key post + 1 := by omega
      rw [this, List.take_succ_cons]
    · rfl
  refine ⟨km', ?_⟩
  simp only [e1, hs0, hi, hl, hsl, Option.bind_eq_bind, Option.some_bind,
    singleGroupCursor.reset, hg, hg0, groupKeys]

theorem groupsOf_cons (first : sortRow) (post : List sortRow) :
    groupsOf (first :: post) =
      ⟨0, first :: post.take (runLen first.key post),
        groupKeys first (post.take (runLen first.key post))⟩ ::
        groupsOf (post.drop (runLen first.key post)) := by
  rw [groupsOf]

theorem groupsOf_nil : groupsOf [] = [] := by
  rw [groupsOf]

theorem Next_append (c : groupResultSet) (pre post : List sortRow) (first : sortRow)
    (hrows : c.rows = pre ++ first :: post) (hi : c.i = pre.length) :
    ∃ km', c.Next = some
      (some ⟨0, first :: post.take (runLen first.key post),
        groupKeys first (post.take (runLen first.key post))⟩,
       { c with
          km := km'
          gc := ⟨0, first :: post.take (runLen first.key post),
            groupKeys first (post.take (runLen first.key post))⟩
          i := pre.length + 1 + runLen first.key post }) := by
  obtain ⟨km', h⟩ := nextGroup_append c pre post first hrows hi
  refine ⟨km', ?_⟩
  have hlt : c.i < c.rows.length := by simp [hrows, hi]
  simp only [groupResultSet.Next, hlt, if_true, h, Option.bind_eq_bind, Option.some_bind]

theorem Next_end (c : groupResultSet) (h : c.rows.length ≤ c.i) : c.Next = some (none, c) := by
  simp [groupResultSet.Next, Nat.not_lt.2 h]

theorem drain_append (fuel : Nat) (c : groupResultSet) (pre post : List sortRow)
    (hrows : c.rows = pre ++ post) (hi : c.i = pre.length) (hf : post.length < fuel) :
    drain fuel c = some (groupsOf post) := by
  induction fuel generalizing c pre post with
  | zero => omega
  | succ fuel ih =>
    cases post with
    | nil =>
      have := Next_end c (by simp [hrows, hi])
      simp [drain, this, groupsOf_nil]
    | cons first post =>
      obtain ⟨km', hN⟩ := Next_append c pre post first hrows hi
      have hn := runLen_le first.key post
      simp only [drain, hN]
      rw [ih _ (pre ++ first :: post.take (runLen first.key post))
        (post.drop (runLen first.key post))]
      · simp [groupsOf_cons]
      · simp only [hrows, List.append_assoc, List.cons_append, List.take_append_drop]
      · simp only [List.length_append, List.length_cons, List.length_take]
        omega
      · simp only [List.length_drop, List.length_cons] at hf ⊢; omega

theorem groups_eq (c : groupResultSet) (h : c.i ≤ c.rows.length) :
    c.groups = some (groupsOf (c.rows.drop c.i)) := by
  unfold groupResultSet.groups
  refine drain_append _ c (c.rows.take c.i) (c.rows.drop c.i) (by simp) (by simp [h]) ?_
  simp only [List.length_drop]; omega

/-! ## The groups of a list of rows -/

theorem runLen_take_key (k : Bytes) (rows : List sortRow) :
    ∀ r ∈ rows.take (runLen k rows), r.key = k := by
  induction rows with
  | nil => simp [runLen]
  | cons a rest ih =>
    simp only [runLen]
    split
    · rename_i h
      intro r hr
      rw [List.take_succ_cons] at hr
      rcases List.mem_cons.1 hr with rfl | hr
      · exact h.symm
      · exact ih r hr
    · simp

theorem runLen_drop_head (k : Bytes) (rows : List sortRow) (r : sortRow)
    (h : (rows.drop (runLen k rows)).head? = some r) : r.key ≠ k := by
  induction rows with
  | nil => simp [runLen] at h
  | cons a rest ih =>
    simp only [runLen] at h
    split at h
    · rw [List.drop_succ_cons] at h; exact ih h
    · rename_i hk
      simp only [List.drop_zero, List.head?_cons, Option.some.injEq] at h
      subst h
      exact fun e => hk e.symm

theorem groupsOf_join (rows : List sortRow) :
    ((groupsOf rows).map singleGroupCursor.rows).flatten = rows := by
  induction rows using groupsOf.induct with
  | case1 => simp [groupsOf_nil]
  | case2 first post ih =>
    rw [groupsOf_cons]
    simp only [List.map_cons, List.flatten_cons, ih, List.cons_append, List.take_append_drop]

theorem groupsOf_shape (rows : List sortRow) :
    ∀ g ∈ groupsOf rows, ∃ first others, g = ⟨0, first :: others, groupKeys first others⟩ ∧
      ∀ r ∈ others, r.key = first.key := by
  induction rows using groupsOf.induct with
  | case1 => simp [groupsOf_nil]
  | case2 first post ih =>
    rw [groupsOf_cons]
    intro g hg
    rcases List.mem_cons.1 hg with rfl | hg
    · exact ⟨first, _, rfl, runLen_take_key _ _⟩
    · exact ih g hg

theorem groupsOf_head (rows : List sortRow) (g : singleGroupCursor)
    (h : (groupsOf rows).head? = some g) : g.rows.head? = rows.head? := by
  cases rows with
  | nil => simp [groupsOf_nil] at h
  | cons first post =>
    rw [groupsOf_cons] at h
    simp only [List.head?_cons, Option.some.injEq] at h
    subst h
    rfl

theorem groupsOf_key_eq (rows : List sortRow) (g : singleGroupCursor) (hg : g ∈ groupsOf rows)
    (r1 r2 : sortRow) (h1 : r1 ∈ g.rows) (h2 : r2 ∈ g.rows) : r1.key = r2.key := by
  obtain ⟨first, others, rfl, hk⟩ := groupsOf_shape rows g hg
  have key : ∀ r ∈ first :: others, r.key = first.key := by
    intro r hr
    rcases List.mem_cons.1 hr with rfl | hr
    · rfl
    · exact hk r hr
  rw [key r1 h1, key r2 h2]

theorem groupsOf_chain (rows : List sortRow) :
    (groupsOf rows).Chain' (fun g1 g2 => ∀ r1 ∈ g1.rows, ∀ r2 ∈ g2.rows, r1.key ≠ r2.key) := by
  induction rows using groupsOf.induct with
  | case1 => simp [groupsOf_nil]
  | case2 first post ih =>
    rw [groupsOf_cons]
    refine List.Chain'.cons' ih ?_
    intro g2 hg2 r1 hr1 r2 hr2
    have hg2mem : g2 ∈ groupsOf (post.drop (runLen first.key post)) := List.mem_of_mem_head? hg2
    have hr1k : r1.key = first.key := by
      rcases List.mem_cons.1 hr1 with rfl | hr1
      · rfl
      · exact runLen_take_key _ _ r1 hr1
    obtain ⟨f2, o2, rfl, hk2⟩ := groupsOf_shape _ g2 hg2mem
    have hhead := groupsOf_head _ _ hg2
    simp only [List.head?_cons] at hhead
    have hf2 : f2.key ≠ first.key := runLen_drop_head _ _ f2 hhead.symm
    have hr2k : r2.key = f2.key := by
      rcases List.mem_cons.1 hr2 with rfl | hr2
      · rfl
      · exact hk2 r2 hr2
    rw [hr1k, hr2k]
    exact fun e => hf2 e.symm

theorem groupsOf_mem_rows (rows : List sortRow) (g : singleGroupCursor) (hg : g ∈ groupsOf rows)
    (r : sortRow) (hr : r ∈ g.rows) : r ∈ rows := by
  rw [← groupsOf_join rows]
  exact List.mem_flatten.2 ⟨g.rows, List.mem_map.2 ⟨g, hg, rfl⟩, hr⟩

theorem mem_groupsOf_of_mem (rows : List sortRow) (r : sortRow) (hr : r ∈ rows) :
    ∃ g ∈ groupsOf rows, r ∈ g.rows := by
  rw [← groupsOf_join rows] at hr
  obtain ⟨l, hl, hrl⟩ := List.mem_flatten.1 hr
  obtain ⟨g, hg, rfl⟩ := List.mem_map.1 hl
  exact ⟨g, hg, hrl⟩

/-- Rows in the order the sort leaves them: no row sorts before a row in front of it. -/
theorem sortLess_false_iff (a b : sortRow) :
    sortLess b a = false ↔ bytesCompare a.key b.key ≤ 0 := by
  simp only [sortLess, beq_eq_false_iff_ne, ne_eq]
  rw [bytesCompare_swap a.key b.key]
  rcases bytesCompare_range a.key b.key with h | h | h <;> simp [h]

theorem groupsOf_sorted (rows : List sortRow)
    (hs : rows.Pairwise (fun a b => bytesCompare a.key b.key ≤ 0)) :
    (groupsOf rows).Pairwise
      (fun g1 g2 => ∀ r1 ∈ g1.rows, ∀ r2 ∈ g2.rows, bytesCompare r1.key r2.key < 0) := by
  induction rows using groupsOf.induct with
  | case1 => simp [groupsOf_nil]
  | case2 first post ih =>
    rw [groupsOf_cons]
    have hs' := List.pairwise_cons.1 hs
    have hdrop : (post.drop (runLen first.key post)).Pairwise
        (fun a b => bytesCompare a.key b.key ≤ 0) :=
      hs'.2.sublist (List.drop_sublist _ _)
    refine List.pairwise_cons.2 ⟨?_, ih hdrop⟩
    intro g2 hg2 r1 hr1 r2 hr2
    have hr1k : r1.key = first.key := by
      rcases List.mem_cons.1 hr1 with rfl | hr1
      · rfl
      · exact runLen_take_key _ _ r1 hr1
    have hr2mem : r2 ∈ post.drop (runLen first.key post) := groupsOf_mem_rows _ g2 hg2 r2 hr2
    -- the first row behind the run has another key, and every row behind it is not below it
    cases hd : post.drop (runLen first.key post) with
    | nil => rw [hd] at hr2mem; exact absurd hr2mem (List.not_mem_nil _)
    | cons f2 rest =>
      have hf2 : f2.key ≠ first.key := runLen_drop_head _ _ f2 (by rw [hd]; rfl)
      have hf2mem : f2 ∈ post := List.mem_of_mem_drop (by rw [hd]; exact List.mem_cons_self _ _)
      have h1 : bytesCompare first.key f2.key ≤ 0 := hs'.1 f2 hf2mem
      have h1' : bytesCompare first.key f2.key < 0 := by
        have : bytesCompare first.key f2.key ≠ 0 :=
          fun e => hf2 ((bytesCompare_eq_zero_iff _ _).1 e).symm
        omega
      rw [hr1k]
      rw [hd] at hr2mem hdrop
      rcases List.mem_cons.1 hr2mem with rfl | hr2rest
      · exact h1'
      · have h2 : bytesCompare f2.key r2.key ≤ 0 := (List.pairwise_cons.1 hdrop).1 r2 hr2rest
        rcases lt_or_eq_of_le h2 with h2 | h2
        · exact bytesCompare_neg_trans h1' h2
        · rw [← (bytesCompare_eq_zero_iff _ _).1 h2]; exact h1'

/-! ## The sort phase -/

theorem foldl_append_eq (vals : List Bytes) (acc : Bytes) :
    vals.foldl (fun key v => key ++ v) acc = acc ++ vals.flatten := by
  induction vals generalizing acc with
  | nil => simp
  | cons v vs ih => simp [ih]

theorem sortKey_eq (vals : List Bytes) : sortKey vals = vals.flatten := by
  simp [sortKey, foldl_append_eq]

/-- The row `sort` retains for an upstream row: the row with its composite key. -/
theorem sortLoop_eq (keys : List Bytes) (pending : List seriesRow) (rows : List sortRow) :
    sortLoop keys pending rows =
      rows ++ pending.map (fun r => ⟨r, sortKey (sortVals keys r.tags)⟩) := by
  induction pending generalizing rows with
  | nil => simp [sortLoop]
  | cons r rest ih =>
    simp only [sortLoop, copyTags, ih, List.map_cons, List.append_assoc, List.singleton_append]

theorem sort_rows (srt : SliceSort) (c : groupResultSet) :
    (c.sort srt).rows =
      srt sortLess (c.cur.pending.map (fun r => ⟨r, sortKey (sortVals c.keys r.tags)⟩)) := by
  simp [groupResultSet.sort, sortLoop_eq]

theorem newGroupResultSet_rows (srt : SliceSort) (cur : indexSeriesCursor) (keys : List Bytes) :
    (newGroupResultSet srt cur keys).rows =
      srt sortLess (cur.pending.map (fun r => ⟨r, sortKey (sortVals keys r.tags)⟩)) := by
  simp [newGroupResultSet, sort_rows]

theorem newGroupResultSet_i (srt : SliceSort) (cur : indexSeriesCursor) (keys : List Bytes) :
    (newGroupResultSet srt cur keys).i = 0 := by
  simp [newGroupResultSet, groupResultSet.sort]

theorem newGroupResultSet_perm (srt : SliceSort) (hsrt : srt.Contract)
    (cur : indexSeriesCursor) (keys : List Bytes) :
    (newGroupResultSet srt cur keys).rows.Perm
      (cur.pending.map (fun r => ⟨r, sortKey (sortVals keys r.tags)⟩)) := by
  rw [newGroupResultSet_rows]; exact hsrt.1 _ _

theorem newGroupResultSet_sorted (srt : SliceSort) (hsrt : srt.Contract)
    (cur : indexSeriesCursor) (keys : List Bytes) :
    (newGroupResultSet srt cur keys).rows.Pairwise
      (fun a b => bytesCompare a.key b.key ≤ 0) := by
  rw [newGroupResultSet_rows]
  refine List.Pairwise.imp ?_ (hsrt.2 sortLess _ sortLess_ordering)
  intro a b h
  exact (sortLess_false_iff a b).1 h

theorem newGroupResultSet_groups (srt : SliceSort) (cur : indexSeriesCursor)
    (keys : List Bytes) :
    (newGroupResultSet srt cur keys).groups =
      some (groupsOf (newGroupResultSet srt cur keys).rows) := by
  rw [groups_eq _ (by rw [newGroupResultSet_i]; omega), newGroupResultSet_i, List.drop_zero]

/-! ## Auxiliary facts for the statements about groups -/

theorem groups_eq_all (c : groupResultSet) : c.groups = some (groupsOf (c.rows.drop c.i)) := by
  by_cases h : c.i ≤ c.rows.length
  · exact groups_eq c h
  · have h' : c.rows.length ≤ c.i := by omega
    have hd : c.rows.drop c.i = [] := List.drop_eq_nil_of_le h'
    rw [hd, groupsOf_nil]
    simp [groupResultSet.groups, drain, Next_end c h']

theorem pairwise_mem_cases {α : Type} {R : α → α → Prop} {l : List α} (h : l.Pairwise R)
    {a b : α} (ha : a ∈ l) (hb : b ∈ l) :
    a = b ∨ (R a b ∧ ∃ i j : Nat, i < j ∧ l[i]? = some a ∧ l[j]? = some b) ∨
      (R b a ∧ ∃ i j : Nat, i < j ∧ l[i]? = some b ∧ l[j]? = some a) := by
  obtain ⟨i, hi, rfl⟩ := List.mem_iff_getElem.1 ha
  obtain ⟨j, hj, rfl⟩ := List.mem_iff_getElem.1 hb
  rcases Nat.lt_trichotomy i j with hij | hij | hij
  · right; left
    exact ⟨List.pairwise_iff_getElem.1 h i j hi hj hij, i, j, hij,
      List.getElem?_eq_getElem hi, List.getElem?_eq_getElem hj⟩
  · left; subst hij; rfl
  · right; right
    exact ⟨List.pairwise_iff_getElem.1 h j i hj hi hij, j, i, hij,
      List.getElem?_eq_getElem hj, List.getElem?_eq_getElem hi⟩

theorem runLen_all (k : Bytes) (rows : List sortRow) (h : ∀ r ∈ rows, r.key = k) :
    runLen k rows = rows.length := by
  induction rows with
  | nil => simp [runLen]
  | cons a rest ih =>
    have ha : k = a.key := (h a (List.mem_cons_self _ _)).symm
    simp only [runLen, ha, if_true, List.length_cons, Nat.add_right_cancel_iff]
    rw [← ha]
    exact ih (fun r hr => h r (List.mem_cons_of_mem _ hr))

theorem foldl_mergeKeys_spec (others : List sortRow) (acc : List Bytes) (hacc : StrictAsc acc)
    (ho : ∀ r ∈ others, StrictAsc (tagKeys r.row.tags)) :
    StrictAsc (others.foldl (fun acc r => mergeKeys acc (tagKeys r.row.tags)) acc) ∧
    ∀ k, k ∈ others.foldl (fun acc r => mergeKeys acc (tagKeys r.row.tags)) acc ↔
      k ∈ acc ∨ ∃ r ∈ others, k ∈ tagKeys r.row.tags := by
  induction others generalizing acc with
  | nil => simp [hacc]
  | cons r rest ih =>
    have hr := ho r (List.mem_cons_self _ _)
    have hrest : ∀ r ∈ rest, StrictAsc (tagKeys r.row.tags) :=
      fun x hx => ho x (List.mem_cons_of_mem _ hx)
    obtain ⟨h1, h2⟩ := ih (mergeKeys acc (tagKeys r.row.tags))
      (mergeKeys_strictAsc _ _ hacc hr) hrest
    refine ⟨h1, ?_⟩
    intro k
    simp only [List.foldl_cons, h2, mergeKeys_mem, List.mem_cons, exists_eq_or_imp]
    tauto

theorem groupKeys_spec (first : sortRow) (others : List sortRow)
    (h : ∀ r ∈ first :: others, StrictAsc (tagKeys r.row.tags)) :
    StrictAsc (groupKeys first others) ∧
    ∀ k, k ∈ groupKeys first others ↔ ∃ r ∈ first :: others, k ∈ tagKeys r.row.tags := by
  obtain ⟨h1, h2⟩ := foldl_mergeKeys_spec others (tagKeys first.row.tags)
    (h first (List.mem_cons_self _ _)) (fun r hr => h r (List.mem_cons_of_mem _ hr))
  refine ⟨h1, ?_⟩
  intro k
  simp only [groupKeys, h2, List.mem_cons, exists_eq_or_imp]

theorem bytesCompare_append_left (p x y : Bytes) :
    bytesCompare (p ++ x) (p ++ y) = bytesCompare x y := by
  induction p with
  | nil => rfl
  | cons a p ih => simp [bytesCompare, ih]

theorem bytesCompare_cons_lt (a b : Fin 256) (x y : Bytes) (h : a < b) :
    bytesCompare (a :: x) (b :: y) = -1 := by
  simp [bytesCompare, h]

theorem Tags.Get_eq_find (tags : Tags) (k : Bytes) :
    Tags.Get tags k = ((tags.find? fun t => t.Key = k).map Tag.Value).getD [] := by
  induction tags with
  | nil => simp [Tags.Get]
  | cons t rest ih =>
    simp only [Tags.Get, bytesEqual, List.find?_cons]
    by_cases h : t.Key = k
    · simp [h]
    · simp [h, ih]

theorem Tags.Get_of_lacks (tags : Tags) (k : Bytes) (h : ∀ t ∈ tags, t.Key ≠ k) :
    Tags.Get tags k = [] := by
  induction tags with
  | nil => simp [Tags.Get]
  | cons t rest ih =>
    have ht : ¬ t.Key = k := h t (List.mem_cons_self _ _)
    simp only [Tags.Get, bytesEqual, ht, decide_False, Bool.false_eq_true, if_false]
    exact ih (fun x hx => h x (List.mem_cons_of_mem _ hx))

theorem sortVals_append (k1 k2 : List Bytes) (tags : Tags) :
    sortKey (sortVals (k1 ++ k2) tags) = sortKey (sortVals k1 tags) ++ sortKey (sortVals k2 tags) := by
  simp [sortKey_eq, sortVals]

theorem sortVals_cons (g : Bytes) (ks : List Bytes) (tags : Tags) :
    sortKey (sortVals (g :: ks) tags) =
      (if (Tags.Get tags g).length = 0 then nilKey else Tags.Get tags g) ++
        sortKey (sortVals ks tags) := by
  simp [sortKey_eq, sortVals]

theorem sortVals_congr (keys : List Bytes) (t1 t2 : Tags)
    (h : ∀ k ∈ keys, Tags.Get t1 k = Tags.Get t2 k) : sortVals keys t1 = sortVals keys t2 := by
  simp only [sortVals]
  exact List.map_congr_left (fun k hk => by simp only [h k hk])

/-- Every retained row of a fresh result set carries the composite key of its row. -/
theorem newGroupResultSet_key (srt : SliceSort) (hsrt : srt.Contract)
    (cur : indexSeriesCursor) (keys : List Bytes) (s : sortRow)
    (hs : s ∈ (newGroupResultSet srt cur keys).rows) :
    s.row ∈ cur.pending ∧ s.key = sortKey (sortVals keys s.row.tags) := by
  have := (newGroupResultSet_perm srt hsrt cur keys).mem_iff.1 hs
  obtain ⟨r, hr, rfl⟩ := List.mem_map.1 this
  exact ⟨hr, rfl⟩

theorem newGroupResultSet_mem (srt : SliceSort) (hsrt : srt.Contract)
    (cur : indexSeriesCursor) (keys : List Bytes) (r : seriesRow) (hr : r ∈ cur.pending) :
    (⟨r, sortKey (sortVals keys r.tags)⟩ : sortRow) ∈ (newGroupResultSet srt cur keys).rows :=
  (newGroupResultSet_perm srt hsrt cur keys).mem_iff.2 (List.mem_map.2 ⟨r, hr, rfl⟩)

/-! ## C1: which rows share a group -/

/-- C1, as stated, fails: with grouping tags `a`, `b` the rows `a=1,b=23` and
`a=12,b=3` both get the composite key `123` and are returned in one group, although
their values for the tag `a` differ. -/
theorem C1_counterexample :
    (newGroupResultSet insertionSortLessFunc ⟨[rowA1B23, rowA12B3], false⟩ [keyA, keyB]).groups =
      some [⟨0, [⟨rowA1B23, [49, 50, 51]⟩, ⟨rowA12B3, [49, 50, 51]⟩], [keyA, keyB]⟩] ∧
    (rowA1B23.tags.find? fun t => t.Key = keyA).map Tag.Value ≠
      (rowA12B3.tags.find? fun t => t.Key = keyA).map Tag.Value := by
  decide

/-- C1, amended: two upstream rows are returned in the same group exactly when their
composite sort keys are equal; rows that have equal values for every grouping tag (a
missing tag counting as one value of its own) have equal composite keys and therefore
share a group. -/
theorem C1_same_group_iff_equal_key (srt : SliceSort) (hsrt : srt.Contract)
    (cur : indexSeriesCursor) (keys : List Bytes) :
    ∃ gs, (newGroupResultSet srt cur keys).groups = some gs ∧
      ∀ r1 ∈ cur.pending, ∀ r2 ∈ cur.pending,
        ((∃ g ∈ gs, (∃ s1 ∈ g.rows, s1.row = r1) ∧ (∃ s2 ∈ g.rows, s2.row = r2)) ↔
          sortKey (sortVals keys r1.tags) = sortKey (sortVals keys r2.tags)) ∧
        ((∀ k ∈ keys, (r1.tags.find? fun t => t.Key = k).map Tag.Value =
            (r2.tags.find? fun t => t.Key = k).map Tag.Value) →
          sortKey (sortVals keys r1.tags) = sortKey (sortVals keys r2.tags)) := by
  refine ⟨_, newGroupResultSet_groups srt cur keys, ?_⟩
  intro r1 hr1 r2 hr2
  have hsorted := groupsOf_sorted _ (newGroupResultSet_sorted srt hsrt cur keys)
  refine ⟨⟨?_, ?_⟩, ?_⟩
  · rintro ⟨g, hg, ⟨s1, hs1, rfl⟩, ⟨s2, hs2, rfl⟩⟩
    have h1 := newGroupResultSet_key srt hsrt cur keys s1 (groupsOf_mem_rows _ g hg s1 hs1)
    have h2 := newGroupResultSet_key srt hsrt cur keys s2 (groupsOf_mem_rows _ g hg s2 hs2)
    rw [← h1.2, ← h2.2]
    exact groupsOf_key_eq _ g hg s1 s2 hs1 hs2
  · intro hkey
    obtain ⟨g1, hg1, hm1⟩ := mem_groupsOf_of_mem _ _ (newGroupResultSet_mem srt hsrt cur keys r1 hr1)
    obtain ⟨g2, hg2, hm2⟩ := mem_groupsOf_of_mem _ _ (newGroupResultSet_mem srt hsrt cur keys r2 hr2)
    have hne12 : ¬ ∀ a ∈ g1.rows, ∀ b ∈ g2.rows, bytesCompare a.key b.key < 0 := by
      intro h
      have := h _ hm1 _ hm2
      simp only [hkey, bytesCompare_self, lt_self_iff_false] at this
    have hne21 : ¬ ∀ a ∈ g2.rows, ∀ b ∈ g1.rows, bytesCompare a.key b.key < 0 := by
      intro h
      have := h _ hm2 _ hm1
      simp only [hkey, bytesCompare_self, lt_self_iff_false] at this
    rcases pairwise_mem_cases hsorted hg1 hg2 with e | h | h
    · subst e
      exact ⟨g1, hg1, ⟨_, hm1, rfl⟩, ⟨_, hm2, rfl⟩⟩
    · exact absurd h.1 hne12
    · exact absurd h.1 hne21
  · intro hval
    have : sortVals keys r1.tags = sortVals keys r2.tags := by
      refine sortVals_congr keys _ _ ?_
      intro k hk
      rw [Tags.Get_eq_find, Tags.Get_eq_find, hval k hk]
    rw [this]

/-- A run of C1 amended, on the rows `a=1,b=23` and `a=12,b=3`. -/
theorem C1_same_group_iff_equal_key_witness :
    SliceSort.Contract insertionSortLessFunc ∧
    ∃ gs, (newGroupResultSet insertionSortLessFunc ⟨[rowA1B23, rowA12B3], false⟩
        [keyA, keyB]).groups = some gs ∧
      ∀ r1 ∈ [rowA1B23, rowA12B3], ∀ r2 ∈ [rowA1B23, rowA12B3],
        ((∃ g ∈ gs, (∃ s1 ∈ g.rows, s1.row = r1) ∧ (∃ s2 ∈ g.rows, s2.row = r2)) ↔
          sortKey (sortVals [keyA, keyB] r1.tags) = sortKey (sortVals [keyA, keyB] r2.tags)) ∧
        ((∀ k ∈ [keyA, keyB], (r1.tags.find? fun t => t.Key = k).map Tag.Value =
            (r2.tags.find? fun t => t.Key = k).map Tag.Value) →
          sortKey (sortVals [keyA, keyB] r1.tags) = sortKey (sortVals [keyA, keyB] r2.tags)) :=
  ⟨insertionSortLessFunc_contract,
    C1_same_group_iff_equal_key insertionSortLessFunc insertionSortLessFunc_contract
      ⟨[rowA1B23, rowA12B3], false⟩ [keyA, keyB]⟩

/-! ## C2: the keys of a group -/

/-- C2: when the tags of every upstream row are strictly ascending by key, the
`Keys()` of every group that `Next` returns are strictly ascending, a key is among
them exactly when some row of the group carries it as a tag key, and a result set
that holds the rows of the group in any other order returns the same `Keys()`. -/
theorem C2_group_keys_union (srt : SliceSort) (hsrt : srt.Contract)
    (cur : indexSeriesCursor) (keys : List Bytes)
    (hasc : ∀ r ∈ cur.pending, StrictAsc (tagKeys r.tags)) :
    ∃ gs, (newGroupResultSet srt cur keys).groups = some gs ∧
      ∀ g ∈ gs,
        StrictAsc g.Keys ∧
        (∀ k, k ∈ g.Keys ↔ ∃ s ∈ g.rows, k ∈ tagKeys s.row.tags) ∧
        (∀ c2 : groupResultSet, c2.i = 0 → c2.rows.Perm g.rows →
          ∃ g2 c3, c2.Next = some (some g2, c3) ∧ g2.rows = c2.rows ∧ g2.Keys = g.Keys) := by
  refine ⟨_, newGroupResultSet_groups srt cur keys, ?_⟩
  intro g hg
  have hrowsAsc : ∀ s ∈ g.rows, StrictAsc (tagKeys s.row.tags) := by
    intro s hs
    exact hasc _ (newGroupResultSet_key srt hsrt cur keys s (groupsOf_mem_rows _ g hg s hs)).1
  obtain ⟨first, others, rfl, hk⟩ := groupsOf_shape _ g hg
  obtain ⟨h1, h2⟩ := groupKeys_spec first others hrowsAsc
  refine ⟨h1, h2, ?_⟩
  intro c2 hi hperm
  simp only at hperm
  cases hrows : c2.rows with
  | nil =>
    rw [hrows] at hperm
    exact absurd hperm.symm.eq_nil (by simp)
  | cons f2 o2 =>
    obtain ⟨km', hN⟩ := Next_append c2 [] o2 f2 (by simpa using hrows) (by simpa using hi)
    have hkey : ∀ s ∈ f2 :: o2, s.key = first.key := by
      intro s hs
      rw [← hrows] at hs
      rcases List.mem_cons.1 (hperm.mem_iff.1 hs) with rfl | hs'
      · rfl
      · exact hk s hs'
    have hlen : runLen f2.key o2 = o2.length := by
      refine runLen_all _ _ ?_
      intro s hs
      rw [hkey s (List.mem_cons_of_mem _ hs), hkey f2 (List.mem_cons_self _ _)]
    rw [hlen, List.take_length] at hN
    refine ⟨_, _, hN, rfl, ?_⟩
    have hasc2 : ∀ s ∈ f2 :: o2, StrictAsc (tagKeys s.row.tags) := by
      intro s hs
      rw [← hrows] at hs
      exact hrowsAsc s (hperm.mem_iff.1 hs)
    obtain ⟨h1', h2'⟩ := groupKeys_spec f2 o2 hasc2
    refine strictAsc_ext h1' h1 ?_
    intro k
    show k ∈ groupKeys f2 o2 ↔ k ∈ groupKeys first others
    rw [h2', h2]
    constructor
    · rintro ⟨s, hs, hks⟩
      rw [← hrows] at hs
      exact ⟨s, hperm.mem_iff.1 hs, hks⟩
    · rintro ⟨s, hs, hks⟩
      have := hperm.mem_iff.2 hs
      rw [hrows] at this
      exact ⟨s, this, hks⟩

/-- A run of C2 on the rows `a=2,b=x` and `a=1`, grouped by `b`. -/
theorem C2_group_keys_union_witness :
    SliceSort.Contract insertionSortLessFunc ∧
    (∀ r ∈ [rowA2Bx, rowA1], StrictAsc (tagKeys r.tags)) ∧
    ∃ gs, (newGroupResultSet insertionSortLessFunc ⟨[rowA2Bx, rowA1], false⟩ [keyB]).groups =
        some gs ∧
      ∀ g ∈ gs,
        StrictAsc g.Keys ∧
        (∀ k, k ∈ g.Keys ↔ ∃ s ∈ g.rows, k ∈ tagKeys s.row.tags) ∧
        (∀ c2 : groupResultSet, c2.i = 0 → c2.rows.Perm g.rows →
          ∃ g2 c3, c2.Next = some (some g2, c3) ∧ g2.rows = c2.rows ∧ g2.Keys = g.Keys) :=
  ⟨insertionSortLessFunc_contract, by decide,
    C2_group_keys_union insertionSortLessFunc insertionSortLessFunc_contract
      ⟨[rowA2Bx, rowA1], false⟩ [keyB] (by decide)⟩

/-! ## C3: rows that lack a grouping tag -/

/-- C3, as stated, fails: with grouping tags `a`, `b` the row `a=1`, which lacks `b`,
gets the key `1\xff` and is returned in the first group, before the group of the row
`a=2,b=x`, which possesses `b`.  With the single grouping tag `b`, the row `a=1`
shares its group with the row whose value for `b` is the byte 0xFF, and likewise
with the row whose value for `b` is empty. -/
theorem C3_counterexample :
    ((newGroupResultSet insertionSortLessFunc ⟨[rowA2Bx, rowA1], false⟩ [keyA, keyB]).groups =
      some [⟨0, [⟨rowA1, [49, 255]⟩], [keyA]⟩, ⟨0, [⟨rowA2Bx, [50, 120]⟩], [keyA, keyB]⟩] ∧
    (∀ t ∈ rowA1.tags, t.Key ≠ keyB) ∧ (∃ t ∈ rowA2Bx.tags, t.Key = keyB)) ∧
    ((newGroupResultSet insertionSortLessFunc ⟨[rowA1, rowBff], false⟩ [keyB]).groups =
      some [⟨0, [⟨rowA1, [255]⟩, ⟨rowBff, [255]⟩], [keyA, keyB]⟩] ∧
    (∃ t ∈ rowBff.tags, t.Key = keyB)) ∧
    ((newGroupResultSet insertionSortLessFunc ⟨[rowA1, rowBEmpty], false⟩ [keyB]).groups =
      some [⟨0, [⟨rowA1, [255]⟩, ⟨rowBEmpty, [255]⟩], [keyA, keyB]⟩] ∧
    (∃ t ∈ rowBEmpty.tags, t.Key = keyB)) := by
  decide

/-- C3, amended: let `g` be a grouping tag, let one upstream row lack `g` and let
another hold for `g` a non-empty value whose first byte is below 0xFF, and let the
two rows have the same key part for the grouping tags in front of `g`.  Then the two
rows are in different groups and the group of the row that lacks `g` is returned
later than the group of the row that holds it. -/
theorem C3_missing_tag_sorts_later (srt : SliceSort) (hsrt : srt.Contract)
    (cur : indexSeriesCursor) (front : List Bytes) (g : Bytes) (back : List Bytes)
    (r1 r2 : seriesRow) (hr1 : r1 ∈ cur.pending) (hr2 : r2 ∈ cur.pending)
    (hlack : ∀ t ∈ r1.tags, t.Key ≠ g)
    (hhas : ∃ b v, Tags.Get r2.tags g = b :: v ∧ b < 0xff)
    (hfront : sortKey (sortVals front r1.tags) = sortKey (sortVals front r2.tags)) :
    ∃ gs, (newGroupResultSet srt cur (front ++ g :: back)).groups = some gs ∧
      ∃ (i j : Nat) (g2 g1 : singleGroupCursor), i < j ∧ gs[i]? = some g2 ∧ gs[j]? = some g1 ∧
        (∃ s ∈ g2.rows, s.row = r2) ∧ (∃ s ∈ g1.rows, s.row = r1) ∧
        (∀ s ∈ g2.rows, s.row ≠ r1) ∧ (∀ s ∈ g1.rows, s.row ≠ r2) := by
  refine ⟨_, newGroupResultSet_groups srt cur _, ?_⟩
  obtain ⟨b, v, hget, hb⟩ := hhas
  -- the two composite keys
  have hk1 : sortKey (sortVals (front ++ g :: back) r1.tags) =
      sortKey (sortVals front r1.tags) ++ (0xff :: sortKey (sortVals back r1.tags)) := by
    rw [sortVals_append, sortVals_cons, Tags.Get_of_lacks _ _ hlack]
    simp [nilKey]
  have hk2 : sortKey (sortVals (front ++ g :: back) r2.tags) =
      sortKey (sortVals front r1.tags) ++ (b :: (v ++ sortKey (sortVals back r2.tags))) := by
    rw [sortVals_append, sortVals_cons, hget, hfront]
    simp
  have hlt : bytesCompare (sortKey (sortVals (front ++ g :: back) r2.tags))
      (sortKey (sortVals (front ++ g :: back) r1.tags)) < 0 := by
    rw [hk1, hk2, bytesCompare_append_left, bytesCompare_cons_lt _ _ _ _ hb]
    decide
  set c := newGroupResultSet srt cur (front ++ g :: back) with hc
  have hsorted := groupsOf_sorted _ (newGroupResultSet_sorted srt hsrt cur (front ++ g :: back))
  obtain ⟨g1, hg1, hm1⟩ := mem_groupsOf_of_mem _ _ (newGroupResultSet_mem srt hsrt cur _ r1 hr1)
  obtain ⟨g2, hg2, hm2⟩ := mem_groupsOf_of_mem _ _ (newGroupResultSet_mem srt hsrt cur _ r2 hr2)
  -- every retained row of `r1` has the key of `r1`, likewise for `r2`
  have key_of : ∀ (gg : singleGroupCursor), gg ∈ groupsOf c.rows → ∀ s ∈ gg.rows,
      s.key = sortKey (sortVals (front ++ g :: back) s.row.tags) := by
    intro gg hgg s hs
    exact (newGroupResultSet_key srt hsrt cur _ s (groupsOf_mem_rows _ gg hgg s hs)).2
  have hsep2 : ∀ s ∈ g2.rows, s.row ≠ r1 := by
    intro s hs e
    have h1 := groupsOf_key_eq _ g2 hg2 s _ hs hm2
    rw [key_of g2 hg2 s hs, e] at h1
    simp only at h1
    rw [h1] at hlt
    exact bytesCompare_neg_irrefl _ hlt
  have hsep1 : ∀ s ∈ g1.rows, s.row ≠ r2 := by
    intro s hs e
    have h1 := groupsOf_key_eq _ g1 hg1 s _ hs hm1
    rw [key_of g1 hg1 s hs, e] at h1
    simp only at h1
    rw [h1] at hlt
    exact bytesCompare_neg_irrefl _ hlt
  rcases pairwise_mem_cases hsorted hg2 hg1 with e | h | h
  · subst e
    exact absurd rfl (hsep2 _ hm1)
  · obtain ⟨_, i, j, hij, hi, hj⟩ := h
    exact ⟨i, j, g2, g1, hij, hi, hj, ⟨_, hm2, rfl⟩, ⟨_, hm1, rfl⟩, hsep2, hsep1⟩
  · have := h.1 _ hm1 _ hm2
    simp only at this
    exact absurd hlt (bytesCompare_neg_asymm this)

/-- A run of C3 amended on the rows `a=1` and `a=2,b=x`, grouped by `b` alone. -/
theorem C3_missing_tag_sorts_later_witness :
    SliceSort.Contract insertionSortLessFunc ∧
    rowA1 ∈ [rowA1, rowA2Bx] ∧ rowA2Bx ∈ [rowA1, rowA2Bx] ∧
    (∀ t ∈ rowA1.tags, t.Key ≠ keyB) ∧
    (∃ b v, Tags.Get rowA2Bx.tags keyB = b :: v ∧ b < 0xff) ∧
    sortKey (sortVals [] rowA1.tags) = sortKey (sortVals [] rowA2Bx.tags) ∧
    ∃ gs, (newGroupResultSet insertionSortLessFunc ⟨[rowA1, rowA2Bx], false⟩
        ([] ++ keyB :: [])).groups = some gs ∧
      ∃ (i j : Nat) (g2 g1 : singleGroupCursor), i < j ∧ gs[i]? = some g2 ∧ gs[j]? = some g1 ∧
        (∃ s ∈ g2.rows, s.row = rowA2Bx) ∧ (∃ s ∈ g1.rows, s.row = rowA1) ∧
        (∀ s ∈ g2.rows, s.row ≠ rowA1) ∧ (∀ s ∈ g1.rows, s.row ≠ rowA2Bx) :=
  ⟨insertionSortLessFunc_contract, by decide, by decide, by decide,
    ⟨120, [], by decide, by decide⟩, by decide,
    C3_missing_tag_sorts_later insertionSortLessFunc insertionSortLessFunc_contract
      ⟨[rowA1, rowA2Bx], false⟩ [] keyB [] rowA1 rowA2Bx (by decide) (by decide) (by decide)
      ⟨120, [], by decide, by decide⟩ (by decide)⟩

/-! ## C4: the groups are the maximal runs -/

/-- C4: on a result set with rows left, `Next` returns the rows `[i, j)`, where every
row in that range has the key of row `i` and `j` is the list end or the index of a
row with another key, and leaves the row cursor at `j` and the row list as it was.
The groups returned by successive calls are non-empty, each holds rows of one key,
neighbouring groups have different keys, and put one after the other the groups give
the rows from the row cursor on, which is the whole row list for a fresh result set.
For the rows `region=east`, `region=east`, `region=west` grouped by `region` the
groups are the two `east` rows, then the `west` row. -/
theorem C4_groups_are_maximal_runs (c : groupResultSet) :
    (c.i < c.rows.length →
      ∃ gc c' first, c.Next = some (some gc, c') ∧ c.rows[c.i]? = some first ∧
        c'.rows = c.rows ∧ c.i < c'.i ∧ c'.i ≤ c.rows.length ∧
        gc.rows = (c.rows.drop c.i).take (c'.i - c.i) ∧
        (∀ r ∈ gc.rows, r.key = first.key) ∧
        (∀ r, c.rows[c'.i]? = some r → r.key ≠ first.key)) ∧
    (∃ gs, c.groups = some gs ∧
      (gs.map singleGroupCursor.rows).flatten = c.rows.drop c.i ∧
      (∀ g ∈ gs, g.rows ≠ [] ∧ ∀ r1 ∈ g.rows, ∀ r2 ∈ g.rows, r1.key = r2.key) ∧
      gs.Chain' (fun g1 g2 => ∀ r1 ∈ g1.rows, ∀ r2 ∈ g2.rows, r1.key ≠ r2.key)) ∧
    (∀ (srt : SliceSort) (cur : indexSeriesCursor) (keys : List Bytes),
      ((newGroupResultSet srt cur keys).rows.drop (newGroupResultSet srt cur keys).i) =
        (newGroupResultSet srt cur keys).rows) ∧
    (newGroupResultSet insertionSortLessFunc ⟨[rowEast1, rowWest, rowEast2], false⟩
        [keyRegion]).groups =
      some [⟨0, [⟨rowEast1, valEast⟩, ⟨rowEast2, valEast⟩], [keyRegion]⟩,
        ⟨0, [⟨rowWest, valWest⟩], [keyRegion]⟩] := by
  refine ⟨?_, ?_, ?_, by decide⟩
  · intro hlt
    have hsplit : c.rows = c.rows.take c.i ++ c.rows.drop c.i := (List.take_append_drop _ _).symm
    cases hd : c.rows.drop c.i with
    | nil =>
      have := congrArg List.length hd
      simp only [List.length_drop, List.length_nil] at this
      omega
    | cons first post =>
      rw [hd] at hsplit
      have hlen : (c.rows.take c.i).length = c.i := by
        simp only [List.length_take]; omega
      obtain ⟨km', hN⟩ := Next_append c (c.rows.take c.i) post first hsplit hlen.symm
      have hn := runLen_le first.key post
      have hpost : post.length + c.i + 1 = c.rows.length := by
        have := congrArg List.length hsplit
        simp only [List.length_append, List.length_cons, hlen] at this
        omega
      refine ⟨_, _, first, hN, ?_, rfl, ?_, ?_, ?_, ?_, ?_⟩
      · have h0 : (c.rows.drop c.i)[0]? = some first := by rw [hd]; simp
        rw [List.getElem?_drop] at h0
        simpa using h0
      · simp only [hlen]; omega
      · simp only [hlen]; omega
      · simp only [hlen, hd]
        have : c.i + 1 + runLen first.key post - c.i = runLen first.key post + 1 := by omega
        rw [this, List.take_succ_cons]
      · intro r hr
        rcases List.mem_cons.1 hr with rfl | hr
        · rfl
        · exact runLen_take_key _ _ r hr
      · intro r hr
        simp only [hlen] at hr
        refine runLen_drop_head first.key post r ?_
        have e : c.rows.drop (c.i + 1 + runLen first.key post) =
            post.drop (runLen first.key post) := by
          have : c.i + 1 + runLen first.key post = c.i + (runLen first.key post + 1) := by omega
          rw [this, ← List.drop_drop, hd, List.drop_succ_cons]
        rw [← e, List.head?_drop]
        exact hr
  · refine ⟨_, groups_eq_all c, groupsOf_join _, ?_, groupsOf_chain _⟩
    intro g hg
    refine ⟨?_, fun r1 h1 r2 h2 => groupsOf_key_eq _ g hg r1 r2 h1 h2⟩
    obtain ⟨first, others, rfl, _⟩ := groupsOf_shape _ g hg
    simp
  · intro srt cur keys
    rw [newGroupResultSet_i, List.drop_zero]

/-! ## C5: the sort phase -/

/-- C5: after the sort phase the row list is a rearrangement of the upstream rows,
each paired with its own composite key, no row lost and none duplicated, and the
list is in non-decreasing order of composite key; the upstream cursor is drained. -/
theorem C5_sort_is_sorted_permutation (srt : SliceSort) (hsrt : srt.Contract)
    (cur : indexSeriesCursor) (keys : List Bytes) :
    (newGroupResultSet srt cur keys).rows.Perm
      (cur.pending.map fun r => ⟨r, sortKey (sortVals keys r.tags)⟩) ∧
    ((newGroupResultSet srt cur keys).rows.map sortRow.row).Perm cur.pending ∧
    (∀ s ∈ (newGroupResultSet srt cur keys).rows, s.key = sortKey (sortVals keys s.row.tags)) ∧
    (newGroupResultSet srt cur keys).rows.Pairwise
      (fun a b => bytesCompare a.key b.key ≤ 0) ∧
    (newGroupResultSet srt cur keys).cur.pending = [] := by
  have hperm := newGroupResultSet_perm srt hsrt cur keys
  refine ⟨hperm, ?_, ?_, newGroupResultSet_sorted srt hsrt cur keys, ?_⟩
  · have := hperm.map sortRow.row
    simpa [Function.comp_def] using this
  · intro s hs
    exact (newGroupResultSet_key srt hsrt cur keys s hs).2
  · simp [newGroupResultSet, groupResultSet.sort, indexSeriesCursor.Close]

/-- A run of C5 on the rows `a=2,b=x`, `a=1` and `a=12,b=3`, grouped by `a`. -/
theorem C5_sort_is_sorted_permutation_witness :
    SliceSort.Contract insertionSortLessFunc ∧
    (newGroupResultSet insertionSortLessFunc ⟨[rowA2Bx, rowA1, rowA12B3], false⟩ [keyA]).rows.Perm
      ([rowA2Bx, rowA1, rowA12B3].map fun r => ⟨r, sortKey (sortVals [keyA] r.tags)⟩) ∧
    ((newGroupResultSet insertionSortLessFunc ⟨[rowA2Bx, rowA1, rowA12B3], false⟩
      [keyA]).rows.map sortRow.row).Perm [rowA2Bx, rowA1, rowA12B3] ∧
    (∀ s ∈ (newGroupResultSet insertionSortLessFunc ⟨[rowA2Bx, rowA1, rowA12B3], false⟩
      [keyA]).rows, s.key = sortKey (sortVals [keyA] s.row.tags)) ∧
    (newGroupResultSet insertionSortLessFunc ⟨[rowA2Bx, rowA1, rowA12B3], false⟩
      [keyA]).rows.Pairwise (fun a b => bytesCompare a.key b.key ≤ 0) ∧
    (newGroupResultSet insertionSortLessFunc ⟨[rowA2Bx, rowA1, rowA12B3], false⟩
      [keyA]).cur.pending = [] :=
  ⟨insertionSortLessFunc_contract,
    C5_sort_is_sorted_permutation insertionSortLessFunc insertionSortLessFunc_contract
      ⟨[rowA2Bx, rowA1, rowA12B3], false⟩ [keyA]⟩

/-! ## C6: the composite key -/

/-- C6, as stated, fails: the row whose tag `a` has the empty value contains the key
`a`, and yet its component for the grouping tag `a` is the byte 0xFF, not the
(empty) value of the tag. -/
theorem C6_counterexample :
    (∃ t ∈ rowAEmpty.tags, t.Key = keyA) ∧
    sortKey (sortVals [keyA] rowAEmpty.tags) = [0xff] ∧
    sortKey (sortVals [keyA] rowAEmpty.tags) ≠
      ([keyA].map fun k =>
        if rowAEmpty.tags.any (fun t => t.Key = k) then Tags.Get rowAEmpty.tags k
        else [0xff]).flatten := by
  decide

/-- C6, amended: the composite sort key of a row is the concatenation, in the
caller's order and with no separator bytes, of one component per grouping tag; the
component is the value of the row's tag with that key when there is such a tag and
its value is not empty, and the single byte 0xFF when the row has no tag with that
key or the value of that tag is empty. -/
theorem C6_composite_key (keys : List Bytes) (tags : Tags) :
    sortKey (sortVals keys tags) =
      (keys.map fun k =>
        match tags.find? (fun t => t.Key = k) with
        | some t => if t.Value = [] then [0xff] else t.Value
        | none => [0xff]).flatten := by
  rw [sortKey_eq, sortVals]
  congr 1
  refine List.map_congr_left ?_
  intro k _
  rw [Tags.Get_eq_find]
  cases h : tags.find? (fun t => t.Key = k) with
  | none => simp [nilKey]
  | some t =>
    by_cases hv : t.Value = []
    · simp [hv, nilKey]
    · simp [hv]

/-! ## C7, C8, C9: the key merger -/

/-- C7, as stated, fails: the active buffer holds the keys `a`, `b` and the incoming
tag set holds the key `b`, a sub-sequence of the buffer; `mergeTagKeys` flips the
active index from 0 to 1 and writes the keys to the other buffer. -/
theorem C7_counterexample :
    Asc mergerAB.get ∧ Asc (tagKeys rowBx.tags) ∧ (tagKeys rowBx.tags).Sublist mergerAB.get ∧
    mergerAB.i = 0 ∧
    mergerAB.mergeTagKeys rowBx.tags =
      some ⟨1, ⟨[keyA, keyB], []⟩, ⟨[keyA, keyB], [[]]⟩⟩ := by
  decide

/-- C7, amended: when the active buffer is ascending and the keys of an ascending tag
set are a sub-sequence of it, `mergeTagKeys` leaves `get()` as it was, with no new
elements.  The merger is left untouched, active index included, when the keys of the
tag set are a leading part of the active buffer; otherwise the active index is
flipped, the same keys now standing in the other buffer, and the buffer that was
active is left as it was. -/
theorem C7_merge_covered_keys (km : keyMerger) (tags : Tags) (hk : Asc km.get)
    (ht : Asc (tagKeys tags)) (hs : (tagKeys tags).Sublist km.get) :
    ∃ km', km.mergeTagKeys tags = some km' ∧ km'.get = km.get ∧
      (tagKeys tags <+: km.get → km' = km) ∧
      (¬ tagKeys tags <+: km.get →
        km'.i = (km.i + 1) % 2 ∧ km'.i % 2 ≠ km.i % 2 ∧
        km'.keysAt (km.i % 2) = km.keysAt (km.i % 2)) := by
  have _ := ht
  by_cases h : matchLen km.get (tagKeys tags) = tags.length
  · have hpre : tagKeys tags <+: km.get := by
      rw [← matchLen_eq_iff]; simpa [tagKeys] using h
    exact ⟨km, mergeTagKeys_same km tags h, rfl, fun _ => rfl, fun hn => absurd hpre hn⟩
  · have hpre : ¬ tagKeys tags <+: km.get := by
      rw [← matchLen_eq_iff]; simpa [tagKeys] using h
    obtain ⟨keya, h1, h2⟩ := mergeTagKeys_swap km tags h
    have hmod : (km.i + 1) % 2 ≠ km.i % 2 := by omega
    have hmod2 : (km.i + 1) % 2 % 2 = (km.i + 1) % 2 := emod_two_emod_two _
    refine ⟨_, h1, ?_, fun hp => absurd hp hpre, fun _ => ⟨?_, ?_, ?_⟩⟩
    · rw [← mergeKeys_sublist km.get (tagKeys tags) hk hs, ← h2]
      simp only [keyMerger.get, keyMerger.setKeysAt, keyMerger.keysAt]
      split <;> simp_all
    · simp only [keyMerger.setKeysAt]
      split <;> rfl
    · simp only [keyMerger.setKeysAt]
      split <;> simpa [hmod2] using hmod
    · simp only [keyMerger.setKeysAt, keyMerger.keysAt]
      rcases Int.emod_two_eq_zero_or_one km.i with h0 | h0
      · have : (km.i + 1) % 2 = 1 := by omega
        simp [h0, this]
      · have : (km.i + 1) % 2 = 0 := by omega
        simp [h0, this]

/-- A run of C7 amended on the active buffer `a`, `b` and the tag set `b=x`. -/
theorem C7_merge_covered_keys_witness :
    Asc mergerAB.get ∧ Asc (tagKeys rowBx.tags) ∧ (tagKeys rowBx.tags).Sublist mergerAB.get ∧
    ∃ km', mergerAB.mergeTagKeys rowBx.tags = some km' ∧ km'.get = mergerAB.get ∧
      (tagKeys rowBx.tags <+: mergerAB.get → km' = mergerAB) ∧
      (¬ tagKeys rowBx.tags <+: mergerAB.get →
        km'.i = (mergerAB.i + 1) % 2 ∧ km'.i % 2 ≠ mergerAB.i % 2 ∧
        km'.keysAt (mergerAB.i % 2) = mergerAB.keysAt (mergerAB.i % 2)) :=
  ⟨by decide, by decide, by decide,
    C7_merge_covered_keys mergerAB rowBx.tags (by decide) (by decide) (by decide)⟩

/-- C8: when the active buffer and the keys of the incoming tag set are both strictly
ascending, `mergeTagKeys` succeeds and `get()` afterwards is strictly ascending, hence
free of duplicates, and holds exactly the keys that were in `get()` before or are keys
of the tag set. -/
theorem C8_merge_is_union (km : keyMerger) (tags : Tags) (hk : StrictAsc km.get)
    (ht : StrictAsc (tagKeys tags)) :
    ∃ km', km.mergeTagKeys tags = some km' ∧ StrictAsc km'.get ∧ km'.get.Nodup ∧
      ∀ x, x ∈ km'.get ↔ x ∈ km.get ∨ x ∈ tagKeys tags := by
  obtain ⟨km', h1, h2⟩ := mergeTagKeys_get km tags
  have hasc : StrictAsc km'.get := by rw [h2]; exact mergeKeys_strictAsc _ _ hk ht
  refine ⟨km', h1, hasc, hasc.nodup, ?_⟩
  intro x
  rw [h2, mergeKeys_mem]

/-- A run of C8 on the active buffer `a`, `b` and the tag set `b=x`. -/
theorem C8_merge_is_union_witness :
    StrictAsc mergerAB.get ∧ StrictAsc (tagKeys rowBx.tags) ∧
    ∃ km', mergerAB.mergeTagKeys rowBx.tags = some km' ∧ StrictAsc km'.get ∧ km'.get.Nodup ∧
      ∀ x, x ∈ km'.get ↔ x ∈ mergerAB.get ∨ x ∈ tagKeys rowBx.tags :=
  ⟨by decide, by decide, C8_merge_is_union mergerAB rowBx.tags (by decide) (by decide)⟩

/-- C9: for every state of the key merger and every tag set, `setTags` succeeds,
leaves the active index at 0, and `get()` then returns the keys of the tags, in the
same order and of the same number. -/
theorem C9_setTags_seeds_keys (km : keyMerger) (tags : Tags) :
    ∃ km', km.setTags tags = some km' ∧ km'.i = 0 ∧ km'.get = tags.map Tag.Key ∧
      km'.get.length = tags.length := by
  obtain ⟨km', h1, h2, h3⟩ := setTags_get km tags
  exact ⟨km', h1, h2, h3, by rw [h3]; simp [tagKeys]⟩

/-! ## C10: exhaustion -/

/-- C10: `Next` returns nil exactly when the row cursor has reached the end of the row
list, and then leaves the result set as it was, so that every later `Next` returns nil
as well; with rows left it returns a group cursor.  For an upstream cursor without
rows the first `Next` returns nil. -/
theorem C10_exhaustion_is_terminal (c : groupResultSet) :
    ((∃ c', c.Next = some (none, c')) ↔ c.rows.length ≤ c.i) ∧
    (c.rows.length ≤ c.i → c.Next = some (none, c)) ∧
    (c.i < c.rows.length → ∃ gc c', c.Next = some (some gc, c')) ∧
    (∀ (srt : SliceSort) (keys : List Bytes) (closed : Bool), srt.Contract →
      (newGroupResultSet srt ⟨[], closed⟩ keys).Next =
        some (none, newGroupResultSet srt ⟨[], closed⟩ keys)) := by
  have hsome : c.i < c.rows.length → ∃ gc c', c.Next = some (some gc, c') := by
    intro hlt
    cases hd : c.rows.drop c.i with
    | nil =>
      have := congrArg List.length hd
      simp only [List.length_drop, List.length_nil] at this
      omega
    | cons first post =>
      have hsplit : c.rows = c.rows.take c.i ++ first :: post := by
        rw [← hd, List.take_append_drop]
      obtain ⟨km', hN⟩ := Next_append c (c.rows.take c.i) post first hsplit
        (by simp only [List.length_take]; omega)
      exact ⟨_, _, hN⟩
  refine ⟨⟨?_, fun h => ⟨c, Next_end c h⟩⟩, Next_end c, hsome, ?_⟩
  · rintro ⟨c', hc'⟩
    by_contra hlt
    obtain ⟨gc, c'', h⟩ := hsome (by omega)
    rw [h] at hc'
    simp at hc'
  · intro srt keys closed hsrt
    refine Next_end _ ?_
    have := (newGroupResultSet_perm srt hsrt ⟨[], closed⟩ keys).length_eq
    simp only [List.map_nil, List.length_nil] at this
    omega

/-- A run of C10 with the insertion sort: no upstream rows, `Next` returns nil. -/
theorem C10_exhaustion_is_terminal_witness :
    SliceSort.Contract insertionSortLessFunc ∧
    (newGroupResultSet insertionSortLessFunc ⟨[], false⟩ [keyA]).Next =
      some (none, newGroupResultSet insertionSortLessFunc ⟨[], false⟩ [keyA]) :=
  ⟨insertionSortLessFunc_contract,
    (C10_exhaustion_is_terminal (newGroupResultSet insertionSortLessFunc ⟨[], false⟩ [keyA])).2.2.2
      insertionSortLessFunc [keyA] false insertionSortLessFunc_contract⟩

/-! ## C11: the cursor over one group -/

theorem nextN_reset_i (c0 : singleGroupCursor) (rows : List sortRow) (k : Nat) :
    (singleGroupCursor.nextN k (c0.reset rows)).i = min k rows.length ∧
    (singleGroupCursor.nextN k (c0.reset rows)).rows = rows := by
  induction k with
  | zero => simp [singleGroupCursor.nextN, singleGroupCursor.reset]
  | succ k ih =>
    obtain ⟨hi, hr⟩ := ih
    simp only [singleGroupCursor.nextN, singleGroupCursor.Next, hi, hr]
    by_cases h : k < rows.length
    · have : min k rows.length < rows.length := by omega
      simp only [this, if_true, and_true]
      omega
    · have : ¬ min k rows.length < rows.length := by omega
      simp only [this, if_false, hi, hr, and_true]
      omega

/-- C11: on a group cursor reset to a group of `n` rows, the call of `Next` that
follows `k` earlier calls returns true exactly when `k < n`, so that the first `n`
calls return true and every later call returns false; and for `1 ≤ k ≤ n`, `Tags()`
called after the `k`-th call succeeds, the index `k - 1` being in range, and returns
the tags of the `k`-th row of the group. -/
theorem C11_group_cursor_walk (c0 : singleGroupCursor) (rows : List sortRow) :
    (∀ k, ((singleGroupCursor.nextN k (c0.reset rows)).Next).1 = decide (k < rows.length)) ∧
    (∀ k, 1 ≤ k → k ≤ rows.length →
      ∃ s, rows[k - 1]? = some s ∧
        (singleGroupCursor.nextN k (c0.reset rows)).Tags = some s.row.tags) := by
  constructor
  · intro k
    obtain ⟨hi, hr⟩ := nextN_reset_i c0 rows k
    simp only [singleGroupCursor.Next, hi, hr]
    by_cases h : k < rows.length
    · have : min k rows.length < rows.length := by omega
      simp [this, h]
    · have : ¬ min k rows.length < rows.length := by omega
      simp [this, h]
  · intro k h1 hn
    obtain ⟨hi, hr⟩ := nextN_reset_i c0 rows k
    have hlt : k - 1 < rows.length := by omega
    refine ⟨rows[k - 1], List.getElem?_eq_getElem hlt, ?_⟩
    have hk : min k rows.length = k := by omega
    have hk0 : ¬ k = 0 := by omega
    simp only [singleGroupCursor.Tags, hi, hr, hk, hk0, if_false,
      List.getElem?_eq_getElem hlt, Option.map_some']

/-- A run of C11 on a group of two rows: the second call of `Next` returns true, the
third returns false, and `Tags()` after the second call gives the tags `az=2`. -/
theorem C11_group_cursor_walk_witness :
    ((singleGroupCursor.nextN 1
        (singleGroupCursor.reset ⟨5, [], []⟩ [⟨rowHostA, [97]⟩, ⟨rowAz2, [97]⟩])).Next).1 = true ∧
    ((singleGroupCursor.nextN 2
        (singleGroupCursor.reset ⟨5, [], []⟩ [⟨rowHostA, [97]⟩, ⟨rowAz2, [97]⟩])).Next).1 = false ∧
    ∃ s, [(⟨rowHostA, [97]⟩ : sortRow), ⟨rowAz2, [97]⟩][2 - 1]? = some s ∧
      (singleGroupCursor.nextN 2
        (singleGroupCursor.reset ⟨5, [], []⟩ [⟨rowHostA, [97]⟩, ⟨rowAz2, [97]⟩])).Tags =
        some s.row.tags :=
  ⟨by rw [(C11_group_cursor_walk ⟨5, [], []⟩ [⟨rowHostA, [97]⟩, ⟨rowAz2, [97]⟩]).1 1]; decide,
   by rw [(C11_group_cursor_walk ⟨5, [], []⟩ [⟨rowHostA, [97]⟩, ⟨rowAz2, [97]⟩]).1 2]; decide,
   (C11_group_cursor_walk ⟨5, [], []⟩ [⟨rowHostA, [97]⟩, ⟨rowAz2, [97]⟩]).2 2 (by decide)
     (by decide)⟩

/-! ## C12: the rows of scenario C -/

/-- C12, as stated, fails: with grouping tags `a`, `b` the row `a=12` with the empty
value for `b` gets the composite key `12\xff`, not `12`, and the result set returns
the two rows in two groups, not in one. -/
theorem C12_counterexample :
    sortKey (sortVals [keyA, keyB] rowA12BEmpty.tags) ≠ [49, 50] ∧
    ((newGroupResultSet insertionSortLessFunc ⟨[rowA1B2, rowA12BEmpty], false⟩
        [keyA, keyB]).groups).map List.length = some 2 := by
  decide

/-- C12, amended: with grouping tags `a`, `b`, the row `a=1,b=2` gets the composite
key `12` and the row `a=12` with the empty value for `b` gets the composite key
`12\xff`, the empty value being replaced by the byte 0xFF; the result set returns
them in two groups, the row `a=1,b=2` first, whichever of the two rows the upstream
cursor hands out first. -/
theorem C12_scenario_two_groups :
    sortKey (sortVals [keyA, keyB] rowA1B2.tags) = [49, 50] ∧
    sortKey (sortVals [keyA, keyB] rowA12BEmpty.tags) = [49, 50, 0xff] ∧
    (newGroupResultSet insertionSortLessFunc ⟨[rowA1B2, rowA12BEmpty], false⟩
        [keyA, keyB]).groups =
      some [⟨0, [⟨rowA1B2, [49, 50]⟩], [keyA, keyB]⟩,
        ⟨0, [⟨rowA12BEmpty, [49, 50, 0xff]⟩], [keyA, keyB]⟩] ∧
    (newGroupResultSet insertionSortLessFunc ⟨[rowA12BEmpty, rowA1B2], false⟩
        [keyA, keyB]).groups =
      some [⟨0, [⟨rowA1B2, [49, 50]⟩], [keyA, keyB]⟩,
        ⟨0, [⟨rowA12BEmpty, [49, 50, 0xff]⟩], [keyA, keyB]⟩] := by
  decide

/-! ## C13: Close -/

/-- C13, as stated, fails: a result set that holds two rows still holds both rows
after `Close`. -/
theorem C13_counterexample :
    ((newGroupResultSet insertionSortLessFunc ⟨[rowA1B2, rowA12BEmpty], false⟩
        [keyA, keyB]).Close).rows =
      [⟨rowA1B2, [49, 50]⟩, ⟨rowA12BEmpty, [49, 50, 0xff]⟩] ∧
    ((newGroupResultSet insertionSortLessFunc ⟨[rowA1B2, rowA12BEmpty], false⟩
        [keyA, keyB]).Close).rows ≠ [] := by
  decide

/-- C13, amended: `Close` closes the upstream cursor and changes nothing else: the
row list, the row cursor, the grouping keys, the group cursor and the key merger are
as they were, so that a result set holds after `Close` the rows it held before; and
calling `Close` a second time leaves the state as the first call left it. -/
theorem C13_close_keeps_rows (c : groupResultSet) :
    c.Close.rows = c.rows ∧ c.Close.i = c.i ∧ c.Close.keys = c.keys ∧ c.Close.gc = c.gc ∧
    c.Close.km = c.km ∧ c.Close.cur = c.cur.Close ∧ c.Close.cur.closed = true ∧
    c.Close.Close = c.Close :=
  ⟨rfl, rfl, rfl, rfl, rfl, rfl, rfl, rfl⟩

/-! ## C14: one grouping tag, a row that lacks it -/

/-- Two upstream rows of which the second has the smaller composite key are returned
in two groups, the group of the second row first. -/
theorem groups_order_of_key_lt (srt : SliceSort) (hsrt : srt.Contract)
    (cur : indexSeriesCursor) (keys : List Bytes) (r1 r2 : seriesRow)
    (hr1 : r1 ∈ cur.pending) (hr2 : r2 ∈ cur.pending)
    (hlt : bytesCompare (sortKey (sortVals keys r2.tags)) (sortKey (sortVals keys r1.tags)) < 0) :
    ∃ gs, (newGroupResultSet srt cur keys).groups = some gs ∧
      ∃ (i j : Nat) (g2 g1 : singleGroupCursor), i < j ∧ gs[i]? = some g2 ∧ gs[j]? = some g1 ∧
        (∃ s ∈ g2.rows, s.row = r2) ∧ (∃ s ∈ g1.rows, s.row = r1) ∧
        (∀ s ∈ g2.rows, s.row ≠ r1) ∧ (∀ s ∈ g1.rows, s.row ≠ r2) := by
  refine ⟨_, newGroupResultSet_groups srt cur _, ?_⟩
  have hsorted := groupsOf_sorted _ (newGroupResultSet_sorted srt hsrt cur keys)
  obtain ⟨g1, hg1, hm1⟩ := mem_groupsOf_of_mem _ _ (newGroupResultSet_mem srt hsrt cur _ r1 hr1)
  obtain ⟨g2, hg2, hm2⟩ := mem_groupsOf_of_mem _ _ (newGroupResultSet_mem srt hsrt cur _ r2 hr2)
  have key_of : ∀ (gg : singleGroupCursor),
      gg ∈ groupsOf (newGroupResultSet srt cur keys).rows → ∀ s ∈ gg.rows,
      s.key = sortKey (sortVals keys s.row.tags) := by
    intro gg hgg s hs
    exact (newGroupResultSet_key srt hsrt cur _ s (groupsOf_mem_rows _ gg hgg s hs)).2
  have hsep2 : ∀ s ∈ g2.rows, s.row ≠ r1 := by
    intro s hs e
    have h1 := groupsOf_key_eq _ g2 hg2 s _ hs hm2
    rw [key_of g2 hg2 s hs, e] at h1
    simp only at h1
    rw [h1] at hlt
    exact bytesCompare_neg_irrefl _ hlt
  have hsep1 : ∀ s ∈ g1.rows, s.row ≠ r2 := by
    intro s hs e
    have h1 := groupsOf_key_eq _ g1 hg1 s _ hs hm1
    rw [key_of g1 hg1 s hs, e] at h1
    simp only at h1
    rw [h1] at hlt
    exact bytesCompare_neg_irrefl _ hlt
  rcases pairwise_mem_cases hsorted hg2 hg1 with e | h | h
  · subst e
    exact absurd rfl (hsep2 _ hm1)
  · obtain ⟨_, i, j, hij, hi, hj⟩ := h
    exact ⟨i, j, g2, g1, hij, hi, hj, ⟨_, hm2, rfl⟩, ⟨_, hm1, rfl⟩, hsep2, hsep1⟩
  · have := h.1 _ hm1 _ hm2
    simp only at this
    exact absurd hlt (bytesCompare_neg_asymm this)

/-- C14: with exactly one grouping tag `g`, a row whose tag `g` has a non-empty
value with every byte below 0xFF and a row that has no tag `g` are returned in
different groups, the group of the row that has the tag first.  For the grouping tag
`host` and the rows `az=1,host=a` and `az=2` the groups are the row with `host=a`
under the keys `az`, `host`, then the row `az=2` under the key `az`. -/
theorem C14_single_tag_missing_last (srt : SliceSort) (hsrt : srt.Contract)
    (cur : indexSeriesCursor) (g : Bytes) (r1 r2 : seriesRow) (t : Tag)
    (hr1 : r1 ∈ cur.pending) (hr2 : r2 ∈ cur.pending)
    (hlack : ∀ t ∈ r1.tags, t.Key ≠ g)
    (hhas : r2.tags.find? (fun t => t.Key = g) = some t)
    (hne : t.Value ≠ []) (hbytes : ∀ b ∈ t.Value, b < 0xff) :
    (∃ gs, (newGroupResultSet srt cur [g]).groups = some gs ∧
      ∃ (i j : Nat) (g2 g1 : singleGroupCursor), i < j ∧ gs[i]? = some g2 ∧ gs[j]? = some g1 ∧
        (∃ s ∈ g2.rows, s.row = r2) ∧ (∃ s ∈ g1.rows, s.row = r1) ∧
        (∀ s ∈ g2.rows, s.row ≠ r1) ∧ (∀ s ∈ g1.rows, s.row ≠ r2)) ∧
    (newGroupResultSet insertionSortLessFunc ⟨[rowAz2, rowHostA], false⟩ [keyHost]).groups =
      some [⟨0, [⟨rowHostA, [97]⟩], [keyAz, keyHost]⟩, ⟨0, [⟨rowAz2, [0xff]⟩], [keyAz]⟩] := by
  refine ⟨groups_order_of_key_lt srt hsrt cur [g] r1 r2 hr1 hr2 ?_, by decide⟩
  have hget : Tags.Get r2.tags g = t.Value := by
    rw [Tags.Get_eq_find, hhas]; rfl
  cases hv : t.Value with
  | nil => exact absurd hv hne
  | cons b v =>
    have hb : b < 0xff := hbytes b (by rw [hv]; exact List.mem_cons_self _ _)
    have hk1 : sortKey (sortVals [g] r1.tags) = [0xff] := by
      rw [sortVals_cons, Tags.Get_of_lacks _ _ hlack]
      simp [nilKey, sortVals, sortKey]
    have hk2 : sortKey (sortVals [g] r2.tags) = b :: v := by
      rw [sortVals_cons, hget, hv]
      simp [sortVals, sortKey]
    rw [hk1, hk2, bytesCompare_cons_lt _ _ _ _ hb]
    decide

/-- A run of C14 on the rows `az=2` and `az=1,host=a`, grouped by `host`. -/
theorem C14_single_tag_missing_last_witness :
    SliceSort.Contract insertionSortLessFunc ∧
    rowAz2 ∈ [rowAz2, rowHostA] ∧ rowHostA ∈ [rowAz2, rowHostA] ∧
    (∀ t ∈ rowAz2.tags, t.Key ≠ keyHost) ∧
    rowHostA.tags.find? (fun t => t.Key = keyHost) = some ⟨keyHost, [97]⟩ ∧
    (⟨keyHost, [97]⟩ : Tag).Value ≠ [] ∧ (∀ b ∈ (⟨keyHost, [97]⟩ : Tag).Value, b < 0xff) ∧
    ∃ gs, (newGroupResultSet insertionSortLessFunc ⟨[rowAz2, rowHostA], false⟩
        [keyHost]).groups = some gs ∧
      ∃ (i j : Nat) (g2 g1 : singleGroupCursor), i < j ∧ gs[i]? = some g2 ∧ gs[j]? = some g1 ∧
        (∃ s ∈ g2.rows, s.row = rowHostA) ∧ (∃ s ∈ g1.rows, s.row = rowAz2) ∧
        (∀ s ∈ g2.rows, s.row ≠ rowAz2) ∧ (∀ s ∈ g1.rows, s.row ≠ rowHostA) :=
  ⟨insertionSortLessFunc_contract, by decide, by decide, by decide, by decide, by decide,
    fun b hb => by rw [List.mem_singleton.1 hb]; decide,
    (C14_single_tag_missing_last insertionSortLessFunc insertionSortLessFunc_contract
      ⟨[rowAz2, rowHostA], false⟩ keyHost rowAz2 rowHostA ⟨keyHost, [97]⟩ (by decide) (by decide)
      (by decide) (by decide) (by decide)
      (fun b hb => by rw [List.mem_singleton.1 hb]; decide)).1⟩

/-! ## C15, C16, C19: more on the key merger -/

/-- C15: when the keys of the incoming tag set are a leading part of the active
buffer, the empty tag set included, `mergeTagKeys` returns without touching the
merger: the active index and both buffers, contents and lengths, are as before. -/
theorem C15_merge_leading_keys_noop (km : keyMerger) (tags : Tags)
    (h : tagKeys tags <+: km.get) :
    km.mergeTagKeys tags = some km ∧ km.mergeTagKeys [] = some km := by
  constructor
  · refine mergeTagKeys_same km tags ?_
    have := (matchLen_eq_iff km.get (tagKeys tags)).2 h
    simpa [tagKeys] using this
  · refine mergeTagKeys_same km [] ?_
    cases km.get <;> simp [tagKeys, matchLen]

/-- A run of C15: the active buffer `a`, `b` and the tag set `a=1`. -/
theorem C15_merge_leading_keys_noop_witness :
    tagKeys rowA1.tags <+: mergerAB.get ∧
    mergerAB.mergeTagKeys rowA1.tags = some mergerAB ∧ mergerAB.mergeTagKeys [] = some mergerAB :=
  ⟨by decide, C15_merge_leading_keys_noop mergerAB rowA1.tags (by decide)⟩

theorem mergeAll_spec (ts : List Tags) (km : keyMerger) (hkm : StrictAsc km.get)
    (hts : ∀ t ∈ ts, StrictAsc (tagKeys t)) :
    ∃ km', mergeAll km ts = some km' ∧ StrictAsc km'.get ∧
      ∀ x, x ∈ km'.get ↔ x ∈ km.get ∨ ∃ t ∈ ts, x ∈ tagKeys t := by
  induction ts generalizing km with
  | nil => exact ⟨km, rfl, hkm, by simp⟩
  | cons t ts ih =>
    obtain ⟨km1, h1, hg1⟩ := mergeTagKeys_get km t
    have hasc1 : StrictAsc km1.get := by
      rw [hg1]
      exact mergeKeys_strictAsc _ _ hkm (hts t (List.mem_cons_self _ _))
    obtain ⟨km', h2, hasc, hmem⟩ := ih km1 hasc1 (fun x hx => hts x (List.mem_cons_of_mem _ hx))
    refine ⟨km', ?_, hasc, ?_⟩
    · simp only [mergeAll, h1, Option.bind_eq_bind, Option.some_bind, h2]
    · intro x
      rw [hmem, hg1, mergeKeys_mem]
      simp only [List.mem_cons, exists_eq_or_imp]
      tauto

/-- C16: after `setTags` on a tag set with strictly ascending keys and any finite
sequence of `mergeTagKeys` calls with tag sets that have strictly ascending keys, every
call succeeds and `get()` is strictly ascending, hence free of duplicates, and holds
exactly the keys of the tag sets given since the `setTags`, that of `setTags` included. -/
theorem C16_merger_invariant (km : keyMerger) (t0 : Tags) (ts : List Tags)
    (h0 : StrictAsc (tagKeys t0)) (hts : ∀ t ∈ ts, StrictAsc (tagKeys t)) :
    ∃ km0 km', km.setTags t0 = some km0 ∧ mergeAll km0 ts = some km' ∧
      StrictAsc km'.get ∧ km'.get.Nodup ∧
      ∀ x, x ∈ km'.get ↔ x ∈ tagKeys t0 ∨ ∃ t ∈ ts, x ∈ tagKeys t := by
  obtain ⟨km0, hs, _, hg0⟩ := setTags_get km t0
  obtain ⟨km', hm, hasc, hmem⟩ := mergeAll_spec ts km0 (by rw [hg0]; exact h0) hts
  refine ⟨km0, km', hs, hm, hasc, hasc.nodup, ?_⟩
  intro x
  rw [hmem, hg0]

/-- A run of C16: `setTags` on `a=2,b=x`, then the tag sets `az=2` and `a=1,b=23`. -/
theorem C16_merger_invariant_witness :
    StrictAsc (tagKeys rowA2Bx.tags) ∧
    (∀ t ∈ [rowAz2.tags, rowA1B23.tags], StrictAsc (tagKeys t)) ∧
    ∃ km0 km', mergerAB.setTags rowA2Bx.tags = some km0 ∧
      mergeAll km0 [rowAz2.tags, rowA1B23.tags] = some km' ∧
      StrictAsc km'.get ∧ km'.get.Nodup ∧
      ∀ x, x ∈ km'.get ↔
        x ∈ tagKeys rowA2Bx.tags ∨ ∃ t ∈ [rowAz2.tags, rowA1B23.tags], x ∈ tagKeys t :=
  ⟨by decide, by decide,
    C16_merger_invariant mergerAB rowA2Bx.tags [rowAz2.tags, rowA1B23.tags] (by decide)
      (by decide)⟩

theorem mergeKeys_length (ks ts : List Bytes) :
    max ks.length ts.length ≤ (mergeKeys ks ts).length ∧
    (mergeKeys ks ts).length ≤ ks.length + ts.length := by
  induction ks generalizing ts with
  | nil => simp [mergeKeys_nil_left]
  | cons a ks ihk =>
    induction ts with
    | nil => simp [mergeKeys_nil_right]
    | cons t ts iht =>
      rw [mergeKeys_cons_cons]
      by_cases c1 : bytesCompare a t < 0
      · have := ihk (t :: ts)
        simp only [c1, if_true, List.length_cons] at this ⊢
        omega
      · by_cases c2 : bytesCompare a t > 0
        · simp only [c1, c2, if_true, if_false, List.length_cons] at iht ⊢
          omega
        · have := ihk ts
          simp only [c1, c2, if_false, List.length_cons] at this ⊢
          omega

theorem KeySlice.store_some {s s' : KeySlice} {k : Nat} {v : Bytes} (h : s.store k v = some s') :
    k < s.len ∧ s'.len = s.len := by
  unfold KeySlice.store at h
  by_cases hk : k < s.len
  · simp only [hk, if_true, Option.some.injEq] at h
    subst h
    exact ⟨hk, by simp [KeySlice.len]⟩
  · simp [hk] at h

theorem mergeLoop_bounds (keys : List Bytes) (tags : Tags) (fuel i j k : Nat) (keya : KeySlice)
    (res : Nat × Nat × Nat × KeySlice) (h : mergeLoop keys tags fuel i j k keya = some res)
    (hk : k ≤ keya.len) : k ≤ res.2.2.1 ∧ res.2.2.1 ≤ keya.len ∧ res.2.2.2.len = keya.len := by
  induction fuel generalizing i j k keya with
  | zero => simp [mergeLoop] at h
  | succ fuel ih =>
    simp only [mergeLoop] at h
    split at h
    · split at h
      · rename_i a t _ _
        split at h
        · cases hs : keya.store k a with
          | none => simp [hs] at h
          | some keya' =>
            simp only [hs, Option.bind_eq_bind, Option.some_bind] at h
            obtain ⟨h1, h2⟩ := KeySlice.store_some hs
            have := ih _ _ _ _ h (by omega)
            omega
        · split at h
          · cases hs : keya.store k t.Key with
            | none => simp [hs] at h
            | some keya' =>
              simp only [hs, Option.bind_eq_bind, Option.some_bind] at h
              obtain ⟨h1, h2⟩ := KeySlice.store_some hs
              have := ih _ _ _ _ h (by omega)
              omega
          · cases hs : keya.store k a with
            | none => simp [hs] at h
            | some keya' =>
              simp only [hs, Option.bind_eq_bind, Option.some_bind] at h
              obtain ⟨h1, h2⟩ := KeySlice.store_some hs
              have := ih _ _ _ _ h (by omega)
              omega
      · simp at h
    · simp only [Option.some.injEq] at h
      subst h
      exact ⟨Nat.le_refl _, hk, rfl⟩

theorem tailLoop_bounds (tags : Tags) (fuel j k : Nat) (keya : KeySlice)
    (res : Nat × Nat × KeySlice) (h : tailLoop tags fuel j k keya = some res)
    (hk : k ≤ keya.len) : k ≤ res.2.1 ∧ res.2.1 ≤ keya.len ∧ res.2.2.len = keya.len := by
  induction fuel generalizing j k keya with
  | zero => simp [tailLoop] at h
  | succ fuel ih =>
    simp only [tailLoop] at h
    split at h
    · split at h
      · rename_i t _
        cases hs : keya.store k t.Key with
        | none => simp [hs] at h
        | some keya' =>
          simp only [hs, Option.bind_eq_bind, Option.some_bind] at h
          obtain ⟨h1, h2⟩ := KeySlice.store_some hs
          have := ih _ _ _ h (by omega)
          omega
      · simp at h
    · simp only [Option.some.injEq] at h
      subst h
      exact ⟨Nat.le_refl _, hk, rfl⟩

/-- C19: for every state of the key merger and every tag set, sorted or not,
`mergeTagKeys` runs to its end without an index or a slice bound out of range: every
read of the active buffer and of the tags and every write to the scratch buffer, whose
length is `l = len(active) + len(tags)`, is within bounds.  The active buffer the call
leaves has at most `l` and at least `max(len(active), len(tags))` keys.  In the two
loops that write, a write position `k` that starts within the length of the scratch
buffer never exceeds it, and the length of the scratch buffer stays as it is. -/
theorem C19_merge_index_safe (km : keyMerger) (tags : Tags) :
    (∃ km', km.mergeTagKeys tags = some km' ∧
      km'.get.length ≤ km.get.length + tags.length ∧
      max km.get.length tags.length ≤ km'.get.length) ∧
    (∀ (fuel i j k : Nat) (keya : KeySlice) (res : Nat × Nat × Nat × KeySlice),
      mergeLoop km.get tags fuel i j k keya = some res → k ≤ keya.len →
        res.2.2.1 ≤ keya.len ∧ res.2.2.2.len = keya.len) ∧
    (∀ (fuel j k : Nat) (keya : KeySlice) (res : Nat × Nat × KeySlice),
      tailLoop tags fuel j k keya = some res → k ≤ keya.len →
        res.2.1 ≤ keya.len ∧ res.2.2.len = keya.len) := by
  refine ⟨?_, ?_, ?_⟩
  · obtain ⟨km', h1, h2⟩ := mergeTagKeys_get km tags
    have := mergeKeys_length km.get (tagKeys tags)
    simp only [tagKeys, List.length_map] at this
    refine ⟨km', h1, ?_, ?_⟩
    · rw [h2]; exact this.2
    · rw [h2]; exact this.1
  · intro fuel i j k keya res h hk
    exact (mergeLoop_bounds _ _ _ _ _ _ _ _ h hk).2
  · intro fuel j k keya res h hk
    exact (tailLoop_bounds _ _ _ _ _ _ h hk).2

/-! ## C17: one group per composite key -/

theorem groupsOf_headKey (rows : List sortRow) (g : singleGroupCursor) (hg : g ∈ groupsOf rows) :
    ∃ s ∈ g.rows, (g.rows.map sortRow.key).headD [] = s.key := by
  obtain ⟨first, others, rfl, _⟩ := groupsOf_shape rows g hg
  exact ⟨first, List.mem_cons_self _ _, rfl⟩

theorem groupsOf_unique (rows : List sortRow)
    (hs : rows.Pairwise (fun a b => bytesCompare a.key b.key ≤ 0))
    (g g' : singleGroupCursor) (hg : g ∈ groupsOf rows) (hg' : g' ∈ groupsOf rows)
    (s s' : sortRow) (hs1 : s ∈ g.rows) (hs2 : s' ∈ g'.rows) (hkey : s.key = s'.key) : g' = g := by
  have hsorted := groupsOf_sorted rows hs
  rcases pairwise_mem_cases hsorted hg hg' with e | h | h
  · exact e.symm
  · have := h.1 s hs1 s' hs2
    rw [hkey] at this
    exact absurd this (bytesCompare_neg_irrefl _)
  · have := h.1 s' hs2 s hs1
    rw [hkey] at this
    exact absurd this (bytesCompare_neg_irrefl _)

/-- C17: the composite keys of the groups that successive `Next` calls return are
strictly ascending in byte order; every composite key among the upstream rows has
exactly one group, which holds rows of that key only, and the number of groups is the
number of distinct composite keys among the upstream rows. -/
theorem C17_group_keys_strictly_ascending (srt : SliceSort) (hsrt : srt.Contract)
    (cur : indexSeriesCursor) (keys : List Bytes) :
    ∃ gs, (newGroupResultSet srt cur keys).groups = some gs ∧
      gs.Pairwise (fun g1 g2 =>
        ∀ s1 ∈ g1.rows, ∀ s2 ∈ g2.rows, bytesCompare s1.key s2.key < 0) ∧
      StrictAsc (gs.map fun g => (g.rows.map sortRow.key).headD []) ∧
      (∀ r ∈ cur.pending, ∃ g ∈ gs,
        (∃ s ∈ g.rows, s.row = r) ∧
        (∀ s ∈ g.rows, s.key = sortKey (sortVals keys r.tags)) ∧
        ∀ g' ∈ gs, (∃ s ∈ g'.rows, s.key = sortKey (sortVals keys r.tags)) → g' = g) ∧
      gs.length = ((cur.pending.map fun r => sortKey (sortVals keys r.tags)).dedup).length := by
  refine ⟨_, newGroupResultSet_groups srt cur keys, ?_⟩
  have hrows := newGroupResultSet_sorted srt hsrt cur keys
  have hsorted := groupsOf_sorted _ hrows
  set rows := (newGroupResultSet srt cur keys).rows with hrowsdef
  have hK : StrictAsc ((groupsOf rows).map fun g => (g.rows.map sortRow.key).headD []) := by
    rw [StrictAsc, List.pairwise_map]
    refine List.Pairwise.imp_of_mem ?_ hsorted
    intro g1 g2 h1 h2 hR
    obtain ⟨s1, hs1, e1⟩ := groupsOf_headKey rows g1 h1
    obtain ⟨s2, hs2, e2⟩ := groupsOf_headKey rows g2 h2
    rw [e1, e2]
    exact hR s1 hs1 s2 hs2
  have hone : ∀ r ∈ cur.pending, ∃ g ∈ groupsOf rows,
      (∃ s ∈ g.rows, s.row = r) ∧
      (∀ s ∈ g.rows, s.key = sortKey (sortVals keys r.tags)) ∧
      ∀ g' ∈ groupsOf rows, (∃ s ∈ g'.rows, s.key = sortKey (sortVals keys r.tags)) → g' = g := by
    intro r hr
    obtain ⟨g, hg, hm⟩ := mem_groupsOf_of_mem _ _ (newGroupResultSet_mem srt hsrt cur keys r hr)
    refine ⟨g, hg, ⟨_, hm, rfl⟩, ?_, ?_⟩
    · intro s hs
      exact groupsOf_key_eq rows g hg s _ hs hm
    · rintro g' hg' ⟨s', hs', hk'⟩
      exact groupsOf_unique rows hrows g g' hg hg' _ s' hm hs' hk'.symm
  refine ⟨hsorted, hK, hone, ?_⟩
  have hperm : ((groupsOf rows).map fun g => (g.rows.map sortRow.key).headD []).Perm
      ((cur.pending.map fun r => sortKey (sortVals keys r.tags)).dedup) := by
    refine (List.perm_ext_iff_of_nodup hK.nodup (List.nodup_dedup _)).2 ?_
    intro x
    rw [List.mem_dedup, List.mem_map, List.mem_map]
    constructor
    · rintro ⟨g, hg, rfl⟩
      obtain ⟨s, hs, e⟩ := groupsOf_headKey rows g hg
      have := newGroupResultSet_key srt hsrt cur keys s (groupsOf_mem_rows rows g hg s hs)
      exact ⟨s.row, this.1, by rw [e, this.2]⟩
    · rintro ⟨r, hr, rfl⟩
      obtain ⟨g, hg, _, hall, _⟩ := hone r hr
      obtain ⟨s, hs, e⟩ := groupsOf_headKey rows g hg
      exact ⟨g, hg, by rw [e, hall s hs]⟩
  have := hperm.length_eq
  simpa using this

/-- A run of C17 on the rows `a=2,b=x`, `a=1` and `a=1,b=23`, grouped by `a`. -/
theorem C17_group_keys_strictly_ascending_witness :
    SliceSort.Contract insertionSortLessFunc ∧
    ∃ gs, (newGroupResultSet insertionSortLessFunc ⟨[rowA2Bx, rowA1, rowA1B23], false⟩
        [keyA]).groups = some gs ∧
      gs.Pairwise (fun g1 g2 =>
        ∀ s1 ∈ g1.rows, ∀ s2 ∈ g2.rows, bytesCompare s1.key s2.key < 0) ∧
      StrictAsc (gs.map fun g => (g.rows.map sortRow.key).headD []) ∧
      (∀ r ∈ [rowA2Bx, rowA1, rowA1B23], ∃ g ∈ gs,
        (∃ s ∈ g.rows, s.row = r) ∧
        (∀ s ∈ g.rows, s.key = sortKey (sortVals [keyA] r.tags)) ∧
        ∀ g' ∈ gs, (∃ s ∈ g'.rows, s.key = sortKey (sortVals [keyA] r.tags)) → g' = g) ∧
      gs.length =
        (([rowA2Bx, rowA1, rowA1B23].map fun r => sortKey (sortVals [keyA] r.tags)).dedup).length :=
  ⟨insertionSortLessFunc_contract,
    C17_group_keys_strictly_ascending insertionSortLessFunc insertionSortLessFunc_contract
      ⟨[rowA2Bx, rowA1, rowA1B23], false⟩ [keyA]⟩

/-! ## C18: the groups do not depend on the order of the rows -/

theorem runLen_drop_ne (first : sortRow) (post : List sortRow)
    (hs : (first :: post).Pairwise (fun a b => bytesCompare a.key b.key ≤ 0)) :
    ∀ r ∈ post.drop (runLen first.key post), r.key ≠ first.key := by
  intro r hr e
  have hsorted := groupsOf_sorted _ hs
  rw [groupsOf_cons] at hsorted
  obtain ⟨g2, hg2, hm⟩ := mem_groupsOf_of_mem _ r hr
  have := (List.pairwise_cons.1 hsorted).1 g2 hg2 first (List.mem_cons_self _ _) r hm
  rw [e] at this
  exact bytesCompare_neg_irrefl _ this

theorem sorted_run_filter (first : sortRow) (post : List sortRow)
    (hs : (first :: post).Pairwise (fun a b => bytesCompare a.key b.key ≤ 0)) :
    (first :: post).filter (fun s => decide (s.key = first.key)) =
      first :: post.take (runLen first.key post) ∧
    (first :: post).filter (fun s => !decide (s.key = first.key)) =
      post.drop (runLen first.key post) := by
  have hsplit : first :: post =
      (first :: post.take (runLen first.key post)) ++ post.drop (runLen first.key post) := by
    simp
  have hrun : ∀ s ∈ first :: post.take (runLen first.key post), s.key = first.key := by
    intro s hs'
    rcases List.mem_cons.1 hs' with rfl | h
    · rfl
    · exact runLen_take_key _ _ s h
  have hrest := runLen_drop_ne first post hs
  constructor
  · conv => lhs; rw [hsplit, List.filter_append]
    rw [List.filter_eq_self.2 (fun s h => by simp [hrun s h]),
      List.filter_eq_nil_iff.2 (fun s h => by simp [hrest s h])]
    simp
  · conv => lhs; rw [hsplit, List.filter_append]
    rw [List.filter_eq_nil_iff.2 (fun s h => by simp [hrun s h]),
      List.filter_eq_self.2 (fun s h => by simp [hrest s h])]
    simp

theorem bytesCompare_antisymm {a b : Bytes} (h1 : bytesCompare a b ≤ 0)
    (h2 : bytesCompare b a ≤ 0) : a = b := by
  rw [bytesCompare_swap a b] at h2
  exact (bytesCompare_eq_zero_iff a b).1 (by omega)

theorem sorted_head_le (first : sortRow) (post : List sortRow)
    (hs : (first :: post).Pairwise (fun a b => bytesCompare a.key b.key ≤ 0))
    (s : sortRow) (h : s ∈ first :: post) : bytesCompare first.key s.key ≤ 0 := by
  rcases List.mem_cons.1 h with rfl | h
  · rw [bytesCompare_self]
  · exact (List.pairwise_cons.1 hs).1 s h

theorem groupsOf_perm (rows1 rows2 : List sortRow) (hp : rows1.Perm rows2)
    (hs1 : rows1.Pairwise (fun a b => bytesCompare a.key b.key ≤ 0))
    (hs2 : rows2.Pairwise (fun a b => bytesCompare a.key b.key ≤ 0))
    (hasc : ∀ s ∈ rows1, StrictAsc (tagKeys s.row.tags)) :
    List.Forall₂ (fun g1 g2 : singleGroupCursor =>
        g1.rows.Perm g2.rows ∧ g1.keys = g2.keys ∧
        ∀ s1 ∈ g1.rows, ∀ s2 ∈ g2.rows, s1.key = s2.key)
      (groupsOf rows1) (groupsOf rows2) := by
  induction rows1 using groupsOf.induct generalizing rows2 with
  | case1 =>
    rw [hp.symm.eq_nil, groupsOf_nil]
    exact List.Forall₂.nil
  | case2 first post ih =>
    cases rows2 with
    | nil => exact absurd hp.eq_nil (by simp)
    | cons f2 p2 =>
      have hkey : f2.key = first.key := by
        have h1 := sorted_head_le f2 p2 hs2 first (hp.mem_iff.1 (List.mem_cons_self _ _))
        have h2 := sorted_head_le first post hs1 f2 (hp.mem_iff.2 (List.mem_cons_self _ _))
        exact bytesCompare_antisymm h1 h2
      obtain ⟨hrun1, hrest1⟩ := sorted_run_filter first post hs1
      obtain ⟨hrun2, hrest2⟩ := sorted_run_filter f2 p2 hs2
      rw [hkey] at hrun2 hrest2
      have hprun : (first :: post.take (runLen first.key post)).Perm
          (f2 :: p2.take (runLen f2.key p2)) := by
        rw [hkey, ← hrun1, ← hrun2]; exact hp.filter _
      have hprest : (post.drop (runLen first.key post)).Perm
          (p2.drop (runLen f2.key p2)) := by
        rw [hkey, ← hrest1, ← hrest2]; exact hp.filter _
      rw [groupsOf_cons, groupsOf_cons]
      refine List.Forall₂.cons ⟨hprun, ?_, ?_⟩ ?_
      · have hasc1 : ∀ s ∈ first :: post.take (runLen first.key post),
            StrictAsc (tagKeys s.row.tags) := by
          intro s h
          refine hasc s ?_
          rcases List.mem_cons.1 h with rfl | h
          · exact List.mem_cons_self _ _
          · exact List.mem_cons_of_mem _ (List.mem_of_mem_take h)
        have hasc2 : ∀ s ∈ f2 :: p2.take (runLen f2.key p2),
            StrictAsc (tagKeys s.row.tags) :=
          fun s h => hasc1 s (hprun.mem_iff.2 h)
        obtain ⟨a1, m1⟩ := groupKeys_spec _ _ hasc1
        obtain ⟨a2, m2⟩ := groupKeys_spec _ _ hasc2
        refine strictAsc_ext a1 a2 ?_
        intro x
        rw [m1, m2]
        constructor
        · rintro ⟨s, h, hx⟩; exact ⟨s, hprun.mem_iff.1 h, hx⟩
        · rintro ⟨s, h, hx⟩; exact ⟨s, hprun.mem_iff.2 h, hx⟩
      · intro s1 h1 s2 h2
        have e1 : s1.key = first.key := by
          rcases List.mem_cons.1 h1 with rfl | h
          · rfl
          · exact runLen_take_key _ _ s1 h
        have e2 : s2.key = f2.key := by
          rcases List.mem_cons.1 h2 with rfl | h
          · rfl
          · exact runLen_take_key _ _ s2 h
        rw [e1, e2, hkey]
      · refine ih _ hprest ((List.pairwise_cons.1 hs1).2.sublist (List.drop_sublist _ _))
          ((List.pairwise_cons.1 hs2).2.sublist (List.drop_sublist _ _)) ?_
        intro s h
        exact hasc s (List.mem_cons_of_mem _ (List.mem_of_mem_drop h))

/-- C18: for every list of grouping tags, every two upstream row sequences that are
rearrangements of each other, the tags of every row strictly ascending by key, and
every two behaviours of the library sort, the two result sets return the same number
of groups, and the groups at the same place hold the same rows up to order, have the
same composite key and the same `Keys()`. -/
theorem C18_groups_up_to_ties (srt1 srt2 : SliceSort) (h1 : srt1.Contract)
    (h2 : srt2.Contract) (cur1 cur2 : indexSeriesCursor) (keys : List Bytes)
    (hperm : cur1.pending.Perm cur2.pending)
    (hasc : ∀ r ∈ cur1.pending, StrictAsc (tagKeys r.tags)) :
    ∃ gs1 gs2, (newGroupResultSet srt1 cur1 keys).groups = some gs1 ∧
      (newGroupResultSet srt2 cur2 keys).groups = some gs2 ∧
      gs1.length = gs2.length ∧
      List.Forall₂ (fun g1 g2 : singleGroupCursor =>
        g1.rows.Perm g2.rows ∧ g1.Keys = g2.Keys ∧
        ∀ s1 ∈ g1.rows, ∀ s2 ∈ g2.rows, s1.key = s2.key) gs1 gs2 := by
  refine ⟨_, _, newGroupResultSet_groups srt1 cur1 keys, newGroupResultSet_groups srt2 cur2 keys,
    ?_⟩
  have hp : (newGroupResultSet srt1 cur1 keys).rows.Perm (newGroupResultSet srt2 cur2 keys).rows :=
    ((newGroupResultSet_perm srt1 h1 cur1 keys).trans (hperm.map _)).trans
      (newGroupResultSet_perm srt2 h2 cur2 keys).symm
  have hall := groupsOf_perm _ _ hp (newGroupResultSet_sorted srt1 h1 cur1 keys)
    (newGroupResultSet_sorted srt2 h2 cur2 keys)
    (fun s hs => hasc _ (newGroupResultSet_key srt1 h1 cur1 keys s hs).1)
  exact ⟨hall.length_eq, hall⟩

/-- A run of C18 on the rows `a=1,b=23`, `a=2,b=x`, `a=1` in two orders, grouped by
`a`. -/
theorem C18_groups_up_to_ties_witness :
    SliceSort.Contract insertionSortLessFunc ∧
    [rowA1B23, rowA2Bx, rowA1].Perm [rowA1, rowA1B23, rowA2Bx] ∧
    (∀ r ∈ [rowA1B23, rowA2Bx, rowA1], StrictAsc (tagKeys r.tags)) ∧
    ∃ gs1 gs2,
      (newGroupResultSet insertionSortLessFunc ⟨[rowA1B23, rowA2Bx, rowA1], false⟩
        [keyA]).groups = some gs1 ∧
      (newGroupResultSet insertionSortLessFunc ⟨[rowA1, rowA1B23, rowA2Bx], false⟩
        [keyA]).groups = some gs2 ∧
      gs1.length = gs2.length ∧
      List.Forall₂ (fun g1 g2 : singleGroupCursor =>
        g1.rows.Perm g2.rows ∧ g1.Keys = g2.Keys ∧
        ∀ s1 ∈ g1.rows, ∀ s2 ∈ g2.rows, s1.key = s2.key) gs1 gs2 :=
  ⟨insertionSortLessFunc_contract, by decide, by decide,
    C18_groups_up_to_ties insertionSortLessFunc insertionSortLessFunc insertionSortLessFunc_contract
      insertionSortLessFunc_contract ⟨[rowA1B23, rowA2Bx, rowA1], false⟩
      ⟨[rowA1, rowA1B23, rowA2Bx], false⟩ [keyA] (by decide) (by decide)⟩

/-! ## C20: no grouping tags -/

theorem foldl_mergeKeys_mem (others : List sortRow) (acc : List Bytes) (k : Bytes) :
    k ∈ others.foldl (fun acc r => mergeKeys acc (tagKeys r.row.tags)) acc ↔
      k ∈ acc ∨ ∃ r ∈ others, k ∈ tagKeys r.row.tags := by
  induction others generalizing acc with
  | nil => simp
  | cons r rest ih =>
    simp only [List.foldl_cons, ih, mergeKeys_mem, List.mem_cons, exists_eq_or_imp]
    tauto

theorem groupKeys_mem (first : sortRow) (others : List sortRow) (k : Bytes) :
    k ∈ groupKeys first others ↔ ∃ r ∈ first :: others, k ∈ tagKeys r.row.tags := by
  simp only [groupKeys, foldl_mergeKeys_mem, List.mem_cons, exists_eq_or_imp]

/-- C20: with an empty list of grouping tags the composite key of every row is the
empty byte sequence, and for every non-empty upstream row sequence the first `Next`
returns one group that holds all rows, with `Keys()` holding exactly the tag keys of
all rows, and the second `Next` returns nil. -/
theorem C20_no_grouping_tags (srt : SliceSort) (hsrt : srt.Contract)
    (cur : indexSeriesCursor) (hne : cur.pending ≠ []) :
    (∀ tags : Tags, sortKey (sortVals [] tags) = []) ∧
    ∃ g c1, (newGroupResultSet srt cur []).Next = some (some g, c1) ∧
      c1.Next = some (none, c1) ∧
      (newGroupResultSet srt cur []).groups = some [g] ∧
      g.rows = (newGroupResultSet srt cur []).rows ∧
      (g.rows.map sortRow.row).Perm cur.pending ∧
      (∀ s ∈ g.rows, s.key = []) ∧
      (∀ k, k ∈ g.Keys ↔ ∃ r ∈ cur.pending, k ∈ tagKeys r.tags) := by
  have hkey0 : ∀ tags : Tags, sortKey (sortVals [] tags) = [] := by
    intro tags; simp [sortVals, sortKey]
  refine ⟨hkey0, ?_⟩
  have hperm := newGroupResultSet_perm srt hsrt cur []
  have hrowperm : ((newGroupResultSet srt cur []).rows.map sortRow.row).Perm cur.pending := by
    have := hperm.map sortRow.row
    simpa [Function.comp_def] using this
  have hkeys : ∀ s ∈ (newGroupResultSet srt cur []).rows, s.key = [] := by
    intro s hs
    rw [(newGroupResultSet_key srt hsrt cur [] s hs).2, hkey0]
  have hgroups := newGroupResultSet_groups srt cur []
  have hi := newGroupResultSet_i srt cur []
  cases hrows : (newGroupResultSet srt cur []).rows with
  | nil =>
    rw [hrows] at hrowperm
    exact absurd hrowperm.symm.eq_nil hne
  | cons first post =>
    rw [hrows] at hkeys hrowperm hgroups
    have hlen : runLen first.key post = post.length := by
      refine runLen_all _ _ ?_
      intro s hs
      rw [hkeys s (List.mem_cons_of_mem _ hs), hkeys first (List.mem_cons_self _ _)]
    obtain ⟨km', hN⟩ := Next_append (newGroupResultSet srt cur []) [] post first
      (by simpa using hrows) (by simpa using hi)
    rw [hlen, List.take_length] at hN
    rw [groupsOf_cons, hlen, List.take_length, List.drop_length, groupsOf_nil] at hgroups
    refine ⟨_, _, hN, ?_, hgroups, rfl, hrowperm, hkeys, ?_⟩
    · refine Next_end _ ?_
      simp only [hrows, List.length_cons, List.length_nil]
      omega
    · intro k
      show k ∈ groupKeys first post ↔ _
      rw [groupKeys_mem]
      constructor
      · rintro ⟨s, hs, hk⟩
        exact ⟨s.row, hrowperm.mem_iff.1 (List.mem_map.2 ⟨s, hs, rfl⟩), hk⟩
      · rintro ⟨r, hr, hk⟩
        obtain ⟨s, hs, rfl⟩ := List.mem_map.1 (hrowperm.mem_iff.2 hr)
        exact ⟨s, hs, hk⟩

/-- A run of C20 on the rows `az=2` and `az=1,host=a`. -/
theorem C20_no_grouping_tags_witness :
    SliceSort.Contract insertionSortLessFunc ∧ [rowAz2, rowHostA] ≠ [] ∧
    ∃ g c1, (newGroupResultSet insertionSortLessFunc ⟨[rowAz2, rowHostA], false⟩ []).Next =
        some (some g, c1) ∧
      c1.Next = some (none, c1) ∧
      (newGroupResultSet insertionSortLessFunc ⟨[rowAz2, rowHostA], false⟩ []).groups = some [g] ∧
      g.rows = (newGroupResultSet insertionSortLessFunc ⟨[rowAz2, rowHostA], false⟩ []).rows ∧
      (g.rows.map sortRow.row).Perm [rowAz2, rowHostA] ∧
      (∀ s ∈ g.rows, s.key = []) ∧
      (∀ k, k ∈ g.Keys ↔ ∃ r ∈ [rowAz2, rowHostA], k ∈ tagKeys r.tags) :=
  ⟨insertionSortLessFunc_contract, by decide,
    (C20_no_grouping_tags insertionSortLessFunc insertionSortLessFunc_contract
      ⟨[rowAz2, rowHostA], false⟩ (by decide)).2⟩

end storage
